import Mathlib

/-! Lua53Embed: event-hook registry and dispatch.

A shallow embedding of `src/Lua53Embed/main.cpp`.

The host globals (`eventHooks`, `deltaTime`, the main stack and the reference
slots of the Lua registry reached through `luaState`) are one explicit state
record, `Host`.  Two ghost fields are added: `cerr`, the lines written to the
error stream, and `trace`, the history of what the script side observed
(which callbacks were entered, what every host binding handed back).

The Lua interpreter is an external library.  The few API calls the program
makes are modelled from the Lua 5.3 reference manual, each next to the place
the source calls it.  A script function is an interaction tree (`Script`): it
calls host bindings, continues on the values it receives, and finally returns
values or raises an error.

Conventions: stacks are lists with the top of the stack at the head; C `float`
and `lua_Number` values are modelled by the rational they denote (the
widening `float -> double` is exact; NaN and infinities are not modelled);
the stack is unbounded.
-/

namespace Lua53Embed

/-- Lua values as far as the host can tell them apart. -/
inductive LuaValue where
  | nil
  | boolean (b : Bool)
  | number (x : Rat)
  | str (s : String)
  | table (id : Nat)
  | thread
  | func (id : Nat)
  deriving DecidableEq, Repr

/-- The functions `prepareLuaState` exposes to scripts. -/
inductive Binding where
  | addEventListener
  | getTimeMillis
  | getDeltaTime
  deriving DecidableEq, Repr

/-- What the script side observes. -/
inductive Obs where
  | invoked (fid : Nat)
  | returned (b : Binding) (results : List LuaValue)
  deriving DecidableEq, Repr

/-- A script computation: return values, raise an error, or call a host
binding with arguments and continue on the values the call hands back. -/
inductive Script where
  | ret (vals : List LuaValue)
  | error (msg : LuaValue)
  | call (b : Binding) (args : List LuaValue) (k : List LuaValue → Script)

/-- Result of `luaL_loadfile`: the compiled chunk (a function) or a
diagnostic message. -/
inductive LoadResult where
  | compiled (fid : Nat)
  | failed (msg : String)

/-- The script side of the world.  `code fid history` is what a call of
function `fid` does when `history` has been observed so far (closures carry
mutable state, so behaviour may depend on the past); `numfmt` is Lua's
number-to-string conversion; `loadfile` is the file system seen through
`luaL_loadfile`. -/
structure Env where
  code : Nat → List Obs → Script
  numfmt : Rat → String
  loadfile : String → LoadResult

/-- Source: `typedef unsigned int luaHookID_t;` and the three globals, with the part of
the interpreter state the host touches. -/
structure Host where
  eventHooks : List (String × List Nat)
  deltaTime : Rat
  stack : List LuaValue
  registry : List LuaValue
  cerr : List String
  trace : List Obs
  deriving DecidableEq, Repr

/-- How a run ended: normally, by undefined behaviour in the host (a crash),
or because the model ran out of fuel. -/
inductive Status where
  | done
  | crashed
  | outOfFuel
  deriving DecidableEq, Repr

/-! ## The hook map (`std::unordered_map<std::string, std::vector<luaHookID_t>>`) -/

/-- Lookup without insertion. -/
def find : List (String × List Nat) → String → Option (List Nat)
  | [], _ => none
  | (k, v) :: rest, key => if k = key then some v else find rest key

/-- The sequence stored under a name; a name that is absent has no entries. -/
def hooksOf (m : List (String × List Nat)) (key : String) : List Nat :=
  (find m key).getD []

/-- The state effect of `eventHooks[key]`: an absent key is inserted with an
empty vector. -/
def access : List (String × List Nat) → String → List (String × List Nat)
  | [], key => [(key, [])]
  | (k, v) :: rest, key => if k = key then (k, v) :: rest else (k, v) :: access rest key

/-- The effect of `eventHooks[key].push_back(id)`. -/
def pushBack : List (String × List Nat) → String → Nat → List (String × List Nat)
  | [], key, id => [(key, [id])]
  | (k, v) :: rest, key, id =>
    if k = key then (k, v ++ [id]) :: rest else (k, v) :: pushBack rest key id

/-! ## Lua API calls used by the host -/

/-- Source: `LUA_REFNIL`. -/
def LUA_REFNIL : Int := -1

/-- Conversion `int -> unsigned int` done by `push_back(functionId)`. -/
def toHookID (functionId : Int) : Nat := (functionId % 4294967296).toNat

/-- Contents of a C string made from a Lua string: everything before the
first NUL character (`strdup`, `std::string(const char*)`, `operator<<`). -/
def cstr (s : String) : String := String.mk (s.data.takeWhile (fun c => c != Char.ofNat 0))

/-- Value at the top of a stack (`nil` stands for an empty stack). -/
def top (st : List LuaValue) : LuaValue := st.headD LuaValue.nil

/-- Source: `lua_rawgeti(L, LUA_REGISTRYINDEX, n)`: slot `n` (counted from 1) of the
registry, `nil` when there is none. -/
def rawgeti (registry : List LuaValue) (n : Nat) : LuaValue :=
  if n = 0 then LuaValue.nil else registry.getD (n - 1) LuaValue.nil

/-- Source: `lua_isfunction`. -/
def isfunction : LuaValue → Bool
  | LuaValue.func _ => true
  | _ => false

/-- Source: `luaL_ref(L, LUA_REGISTRYINDEX)` on the popped value: `nil` gets
`LUA_REFNIL` and no slot; any other value is stored in the first slot after
the last one (no reference is ever released by this program, so the free list
is empty).  The reference is the mathematical slot number; it fits the `int`
result as long as there are fewer than 2^31 - 1 slots. -/
def luaL_ref (registry : List LuaValue) (v : LuaValue) : Int × List LuaValue :=
  if v = LuaValue.nil then (LUA_REFNIL, registry)
  else (((registry.length + 1 : Nat) : Int), registry ++ [v])

/-- Source: `lua_tostring`: the string, the formatted number, or `NULL`. -/
def lua_tostring (env : Env) : LuaValue → Option String
  | LuaValue.str s => some s
  | LuaValue.number x => some (env.numfmt x)
  | _ => none

/-! ## Host bindings -/

/-- Source: `hookEvent(lua_State*)`, run on its own frame (`frame` holds the call's
arguments, last argument on top).  Gives the status, the host state, the frame
when the function returns and the number of results it announces. -/
def hookEvent (env : Env) (h : Host) (frame : List LuaValue) :
    Status × Host × List LuaValue × Nat :=
  let argc := frame.length
  if argc ≠ 2 then
    (Status.done, h, LuaValue.number (-1) :: frame.drop argc, 0)
  else
    let r := luaL_ref h.registry (top frame)
    let frame1 := frame.drop 1
    let h1 := { h with registry := r.2 }
    match lua_tostring env (top frame1) with
    | none => (Status.crashed, h1, frame1, 0)
    | some s =>
      let functionName := cstr s
      let frame2 := frame1.drop 1
      let h2 := { h1 with eventHooks := pushBack h1.eventHooks functionName (toHookID r.1) }
      (Status.done, h2, LuaValue.number 1 :: frame2, 1)

/-- Source: `luaGetTimeMillis(lua_State*)`. -/
def luaGetTimeMillis (h : Host) (frame : List LuaValue) :
    Status × Host × List LuaValue × Nat :=
  (Status.done, h, LuaValue.number 1234567 :: frame, 1)

/-- Source: `luaGetDeltaTime(lua_State*)`. -/
def luaGetDeltaTime (h : Host) (frame : List LuaValue) :
    Status × Host × List LuaValue × Nat :=
  (Status.done, h, LuaValue.number h.deltaTime :: frame, 1)

/-- The C function behind each binding. -/
def cfunction (env : Env) : Binding → Host → List LuaValue → Status × Host × List LuaValue × Nat
  | Binding.addEventListener => hookEvent env
  | Binding.getTimeMillis => luaGetTimeMillis
  | Binding.getDeltaTime => luaGetDeltaTime

/-- A script calls a binding: the arguments are pushed on a fresh frame in
order, the C function runs, and the script receives the topmost `n` values of
the frame, where `n` is the number the C function returned. -/
def callBinding (env : Env) (b : Binding) (args : List LuaValue) (h : Host) :
    Status × Host × List LuaValue :=
  let r := cfunction env b h args.reverse
  let results := (r.2.2.1.take r.2.2.2).reverse
  match r.1 with
  | Status.done => (Status.done, { r.2.1 with trace := r.2.1.trace ++ [Obs.returned b results] }, results)
  | st => (st, r.2.1, [])

/-- What a script computation leaves for its caller. -/
inductive Outcome where
  | values (vals : List LuaValue)
  | raised (msg : LuaValue)
  deriving DecidableEq, Repr

/-- Run a script computation against the host. -/
def runScript (env : Env) : Script → Host → Status × Host × Outcome
  | Script.ret vals, h => (Status.done, h, Outcome.values vals)
  | Script.error msg, h => (Status.done, h, Outcome.raised msg)
  | Script.call b args k, h =>
    let r := callBinding env b args h
    match r.1 with
    | Status.done => runScript env (k r.2.2) r.2.1
    | st => (st, r.2.1, Outcome.values [])

/-- Name of a value's type in error messages (`luaL_typename`). -/
def typename : LuaValue → String
  | LuaValue.nil => "nil"
  | LuaValue.boolean _ => "boolean"
  | LuaValue.number _ => "number"
  | LuaValue.str _ => "string"
  | LuaValue.table _ => "table"
  | LuaValue.thread => "thread"
  | LuaValue.func _ => "function"

/-- A protected call of the script function `fid` without arguments, the
function value having been on top of the stack: it is popped, the function
runs, and all its results are pushed in order (`LUA_MULTRET`), or the error
value is. -/
def invoke (env : Env) (fid : Nat) (h : Host) : Status × Host :=
  let h0 := { h with stack := h.stack.drop 1, trace := h.trace ++ [Obs.invoked fid] }
  let r := runScript env (env.code fid h0.trace) h0
  match r.1, r.2.2 with
  | Status.done, Outcome.values vals => (Status.done, { r.2.1 with stack := vals.reverse ++ r.2.1.stack })
  | Status.done, Outcome.raised msg => (Status.done, { r.2.1 with stack := msg :: r.2.1.stack })
  | st, _ => (st, r.2.1)

/-- Source: `lua_pcall(L, 0, LUA_MULTRET, 0)`: calls the value on top of the
stack.  A value that is not a function cannot be called; the call fails with
an error message in its place (metamethods are not modelled). -/
def pcall (env : Env) (h : Host) : Status × Host :=
  match top h.stack with
  | LuaValue.func fid => invoke env fid h
  | v => (Status.done,
      { h with stack := LuaValue.str ("attempt to call a " ++ typename v ++ " value")
                          :: h.stack.drop 1 })

/-! ## Dispatch -/

/-- The `for` loop of `fireEvent`, from index `i`.  Every test of the
condition evaluates `eventHooks[eventName]` anew; `i` is an `unsigned int`. -/
def fireLoop (env : Env) (eventName : String) : Nat → Nat → Host → Status × Host
  | 0, _, h => (Status.outOfFuel, h)
  | fuel + 1, i, h =>
    let h0 := { h with eventHooks := access h.eventHooks eventName }
    if i < (hooksOf h0.eventHooks eventName).length then
      let id := (hooksOf h0.eventHooks eventName).getD i 0
      let h1 := { h0 with stack := rawgeti h0.registry id :: h0.stack }
      if isfunction (top h1.stack) then
        let r := pcall env h1
        match r.1 with
        | Status.done => fireLoop env eventName fuel ((i + 1) % 4294967296) r.2
        | st => (st, r.2)
      else
        fireLoop env eventName fuel ((i + 1) % 4294967296) { h1 with stack := h1.stack.drop 1 }
    else (Status.done, h0)

/-- Source: `fireEvent(const char *eventName)`; `eventName` is the content of the C
string. -/
def fireEvent (env : Env) (fuel : Nat) (eventName : String) (h : Host) : Status × Host :=
  let h0 := { h with eventHooks := access h.eventHooks eventName }
  if (hooksOf h0.eventHooks eventName).length > 0 then
    fireLoop env eventName fuel 0 h0
  else (Status.done, h0)

/-- Source: `tick(float deltaTime)`. -/
def tick (env : Env) (fuel : Nat) (dt : Rat) (h : Host) : Status × Host :=
  fireEvent env fuel "Update" { h with deltaTime := dt }

/-- Source: `loadScript(const char *scriptPath)`. -/
def loadScript (env : Env) (scriptPath : String) (h : Host) : Status × Host :=
  match env.loadfile scriptPath with
  | LoadResult.compiled fid =>
    -- the values the chunk leaves are looked at (`lua_istable`) and not used
    pcall env { h with stack := LuaValue.func fid :: h.stack }
  | LoadResult.failed msg =>
    let h1 := { h with stack := LuaValue.str msg :: h.stack }
    match lua_tostring env (top h1.stack) with
    | none => (Status.crashed, h1)
    | some s =>
      (Status.done, { h1 with cerr := h1.cerr ++ ["[ERROR]: " ++ cstr s ++ "\n"],
                              stack := h1.stack.drop 1 })

/-- The state at program start: the globals are zero-initialised and
`luaL_newstate` gives an empty stack and a registry whose first two slots hold
the main thread and the table of globals. -/
def initial : Host :=
  { eventHooks := [], deltaTime := 0, stack := [],
    registry := [LuaValue.thread, LuaValue.table 0], cerr := [], trace := [] }

/-- Source: `prepareLuaState()`: the bindings are registered (they are the `Binding`
constructors here) and `test.lua` is loaded. -/
def prepareLuaState (env : Env) : Status × Host :=
  loadScript env "test.lua" initial

/-- Runs `n` consecutive calls `tick(dt)`, stopping at the first that does not
finish. -/
def ticks (env : Env) (fuel : Nat) (dt : Rat) : Nat → Host → Status × Host
  | 0, h => (Status.done, h)
  | n + 1, h =>
    let r := tick env fuel dt h
    match r.1 with
    | Status.done => ticks env fuel dt n r.2
    | st => (st, r.2)

/-- Source: `main()`: sixty ticks of `12.0f`. -/
def main (env : Env) (fuel : Nat) : Status × Host :=
  let r := prepareLuaState env
  match r.1 with
  | Status.done => ticks env fuel 12 60 r.2
  | st => (st, r.2)

/-! ## Vocabulary of the statements -/

/-- The callbacks entered, in order, according to a trace. -/
def invocations : List Obs → List Nat
  | [] => []
  | Obs.invoked fid :: rest => fid :: invocations rest
  | Obs.returned _ _ :: rest => invocations rest

/-- The function a value is, if it is one. -/
def funcId : LuaValue → Option Nat
  | LuaValue.func fid => some fid
  | _ => none

/-- The functions a sequence of references resolves to, in order; references
that do not resolve to a function are left out. -/
def callbacksOf (registry : List LuaValue) (ids : List Nat) : List Nat :=
  ids.filterMap (fun id => funcId (rawgeti registry id))

/-- Number of entries in the whole hook map. -/
def entries : List (String × List Nat) → Nat
  | [] => 0
  | (_, v) :: rest => v.length + entries rest

/-- A callback that runs to completion and leaves the hook map as it found it,
whatever the state and history it starts from. -/
def Quiet (env : Env) (fid : Nat) : Prop :=
  ∀ t : Host, (invoke env fid t).1 = Status.done ∧ (invoke env fid t).2.eventHooks = t.eventHooks

/-- A string without NUL character, that is, one a C string can hold. -/
def NulFree (s : String) : Prop := ∀ c ∈ s.data, c ≠ Char.ofNat 0

instance (s : String) : Decidable (NulFree s) := by
  unfold NulFree
  infer_instance

/-- What running script code can do to the host between `h` and `h'`: the
clock, the error stream are untouched; reference slots and hook sequences only
grow at the end; every reference added to a sequence is a slot of the
reference table or the unsigned image of `LUA_REFNIL`; every delta time a
script was handed is the clock value. -/
structure Grows (h h' : Host) : Prop where
  deltaTime : h'.deltaTime = h.deltaTime
  cerr : h'.cerr = h.cerr
  registry : ∃ ext, h'.registry = h.registry ++ ext
  hooks : ∀ k, ∃ more, hooksOf h'.eventHooks k = hooksOf h.eventHooks k ++ more ∧
    ∀ id ∈ more, h'.registry.length < 4294967295 →
      id ≤ h'.registry.length ∨ id = 4294967295
  present : ∀ k, access h.eventHooks k = h.eventHooks → access h'.eventHooks k = h'.eventHooks
  entries_le : entries h.eventHooks ≤ entries h'.eventHooks
  trace : ∃ t, h'.trace = h.trace ++ t ∧
    ∀ x, Obs.returned Binding.getDeltaTime x ∈ t → x = [LuaValue.number h.deltaTime]

/-! ## Sample scripts used to evaluate the model -/

/-- A script world with a few fixed functions: `0` raises an error, `1`
returns one value, `2` registers function `3` under "Update", `4` reads the
delta time, `5` calls the registration binding with one argument, every other
function returns nothing.  "test.lua" compiles to function `0`, "ok.lua" to
function `2`, every other path fails to load. -/
def demoEnv : Env :=
  { code := fun fid _ =>
      match fid with
      | 0 => Script.error (LuaValue.str "boom")
      | 1 => Script.ret [LuaValue.number 7]
      | 2 => Script.call Binding.addEventListener [LuaValue.str "Update", LuaValue.func 3]
               (fun _ => Script.ret [])
      | 4 => Script.call Binding.getDeltaTime [] (fun _ => Script.ret [])
      | 5 => Script.call Binding.addEventListener [LuaValue.str "Update"] Script.ret
      | _ => Script.ret []
    numfmt := fun _ => "0"
    loadfile := fun path =>
      if path = "test.lua" then LoadResult.compiled 0
      else if path = "ok.lua" then LoadResult.compiled 2
      else LoadResult.failed "cannot open file" }

/-- Two callbacks under "Update": slot 3 holds function `1`, slot 4 function `4`. -/
def demoHost : Host :=
  { initial with
    eventHooks := [("Update", [3, 4])]
    registry := [LuaValue.thread, LuaValue.table 0, LuaValue.func 1, LuaValue.func 4] }

/-- A sequence that mixes good and bad entries: function `1`, the image of
`LUA_REFNIL`, a slot that holds a number, function `4`. -/
def mixedHost : Host :=
  { initial with
    eventHooks := [("Update", [3, 4294967295, 5, 4])]
    registry := [LuaValue.thread, LuaValue.table 0, LuaValue.func 1, LuaValue.func 4,
                 LuaValue.number 5] }

/-- One callback under "Update" that registers function `3` under "Update"
when it runs. -/
def reentrantHost : Host :=
  { initial with
    eventHooks := [("Update", [3])]
    registry := [LuaValue.thread, LuaValue.table 0, LuaValue.func 2] }

/-- One callback under "Update" that raises an error (function `0`). -/
def errorHost : Host :=
  { initial with
    eventHooks := [("Update", [3])]
    registry := [LuaValue.thread, LuaValue.table 0, LuaValue.func 0] }

/-! ## The hook map -/

theorem hooksOf_access (m : List (String × List Nat)) (key k : String) :
    hooksOf (access m key) k = hooksOf m k := by
  induction m with
  | nil =>
    by_cases hk : key = k <;> simp [access, hooksOf, find, hk]
  | cons p rest ih =>
    obtain ⟨a, v⟩ := p
    by_cases ha : a = key
    · simp [access, ha]
    · by_cases hk : a = k
      · subst hk
        simp [access, ha, hooksOf, find]
      · simpa [access, ha, hooksOf, find, hk] using ih

theorem access_access (m : List (String × List Nat)) (key : String) :
    access (access m key) key = access m key := by
  induction m with
  | nil => simp [access]
  | cons p rest ih =>
    obtain ⟨a, v⟩ := p
    by_cases ha : a = key
    · simp [access, ha]
    · simp [access, ha, ih]

theorem access_of_find (m : List (String × List Nat)) (key : String)
    (h : find m key ≠ none) : access m key = m := by
  induction m with
  | nil => simp [find] at h
  | cons p rest ih =>
    obtain ⟨a, v⟩ := p
    by_cases ha : a = key
    · simp [access, ha]
    · simp [find, ha] at h
      simp [access, ha, ih h]

theorem access_of_hooksOf_ne_nil (m : List (String × List Nat)) (key : String)
    (h : hooksOf m key ≠ []) : access m key = m := by
  apply access_of_find
  intro hn
  simp [hooksOf, hn] at h

theorem hooksOf_pushBack_same (m : List (String × List Nat)) (key : String) (id : Nat) :
    hooksOf (pushBack m key id) key = hooksOf m key ++ [id] := by
  induction m with
  | nil => simp [pushBack, hooksOf, find]
  | cons p rest ih =>
    obtain ⟨a, v⟩ := p
    by_cases ha : a = key
    · simp [pushBack, ha, hooksOf, find]
    · simpa [pushBack, ha, hooksOf, find] using ih

theorem hooksOf_pushBack_other (m : List (String × List Nat)) (key k : String) (id : Nat)
    (hk : k ≠ key) : hooksOf (pushBack m key id) k = hooksOf m k := by
  induction m with
  | nil =>
    have : ¬ key = k := fun e => hk e.symm
    simp [pushBack, hooksOf, find, this]
  | cons p rest ih =>
    obtain ⟨a, v⟩ := p
    by_cases ha : a = key
    · have : ¬ key = k := fun e => hk e.symm
      simp [pushBack, ha, hooksOf, find, this]
    · by_cases hak : a = k
      · subst hak
        simp [pushBack, ha, hooksOf, find]
      · simpa [pushBack, ha, hooksOf, find, hak] using ih

theorem entries_pushBack (m : List (String × List Nat)) (key : String) (id : Nat) :
    entries (pushBack m key id) = entries m + 1 := by
  induction m with
  | nil => simp [pushBack, entries]
  | cons p rest ih =>
    obtain ⟨a, v⟩ := p
    by_cases ha : a = key
    · simp [pushBack, ha, entries]; omega
    · simp [pushBack, ha, entries, ih]; omega

theorem access_pushBack_of_access (m : List (String × List Nat)) (key k : String) (id : Nat)
    (h : access m k = m) : access (pushBack m key id) k = pushBack m key id := by
  induction m with
  | nil => simp [access] at h
  | cons p rest ih =>
    obtain ⟨a, v⟩ := p
    by_cases hak : a = k
    · subst hak
      by_cases ha : a = key
      · simp [pushBack, ha, access]
      · simp [pushBack, ha, access]
    · simp [access, hak] at h
      by_cases ha : a = key
      · subst ha
        simp [pushBack, access, hak, h]
      · simp [pushBack, ha, access, hak, ih h]

theorem invocations_append (a b : List Obs) :
    invocations (a ++ b) = invocations a ++ invocations b := by
  induction a with
  | nil => rfl
  | cons o rest ih => cases o <;> simp [invocations, ih]

theorem cstr_of_nulFree (s : String) (h : NulFree s) : cstr s = s := by
  unfold cstr
  have : s.data.takeWhile (fun c => c != Char.ofNat 0) = s.data := by
    rw [List.takeWhile_eq_self_iff]
    intro c hc
    simpa using h c hc
  rw [this]

/-! ## The registration binding -/

theorem toHookID_slot (n : Nat) (hn : n + 1 < 2147483648) :
    toHookID (((n + 1 : Nat) : Int)) = n + 1 := by
  unfold toHookID
  have h1 : (((n + 1 : Nat) : Int)) % 4294967296 = ((n + 1 : Nat) : Int) := by
    apply Int.emod_eq_of_lt <;> omega
  rw [h1]
  simp

theorem rawgeti_append_new (registry : List LuaValue) (v : LuaValue) :
    rawgeti (registry ++ [v]) (registry.length + 1) = v := by
  simp [rawgeti, List.getD_eq_getElem?_getD]

theorem rawgeti_refnil (registry : List LuaValue) (hn : registry.length + 1 < 2147483648) :
    rawgeti registry (toHookID LUA_REFNIL) = LuaValue.nil := by
  have : toHookID LUA_REFNIL = 4294967295 := by decide
  rw [this]
  simp only [rawgeti]
  rw [if_neg (by decide)]
  rw [List.getD_eq_getElem?_getD, List.getElem?_eq_none (by omega)]
  rfl

/-- C4: a call of `hookEvent` whose argument count is not two finishes
with the host state (hook map and reference slots included) exactly as it
was, and with a frame that holds none of the arguments any more, only the
pushed number -1. -/
theorem hookEvent_wrong_argc_registers_nothing (env : Env) (h : Host) (frame : List LuaValue)
    (hargc : frame.length ≠ 2) :
    (hookEvent env h frame).1 = Status.done ∧
    (hookEvent env h frame).2.1 = h ∧
    (hookEvent env h frame).2.2.1 = [LuaValue.number (-1)] := by
  simp [hookEvent, hargc]

theorem hookEvent_wrong_argc_registers_nothing_witness :
    [LuaValue.func 1, LuaValue.str "Update", LuaValue.str "extra"].length ≠ 2 ∧
    (hookEvent demoEnv initial [LuaValue.func 1, LuaValue.str "Update", LuaValue.str "extra"]).2.1
      = initial ∧
    (hookEvent demoEnv initial [LuaValue.func 1, LuaValue.str "Update", LuaValue.str "extra"]).2.2.1
      = [LuaValue.number (-1)] :=
  ⟨by decide,
   (hookEvent_wrong_argc_registers_nothing demoEnv initial
      [LuaValue.func 1, LuaValue.str "Update", LuaValue.str "extra"] (by decide)).2⟩

/-- C3: what the code does on a call of `addEventListener` whose
argument count is not two: `hookEvent` pushes -1 but announces zero results,
so the calling script receives no value at all (not the failure code -1). -/
theorem addEventListener_wrong_argc_yields_no_value (env : Env) (h : Host)
    (args : List LuaValue) (hargc : args.length ≠ 2) :
    (hookEvent env h args.reverse).2.2.2 = 0 ∧
    (callBinding env Binding.addEventListener args h).2.2 = [] ∧
    (callBinding env Binding.addEventListener args h).2.2 ≠ [LuaValue.number (-1)] := by
  have hr : args.reverse.length ≠ 2 := by simpa using hargc
  have hh : hookEvent env h args.reverse = (Status.done, h, [LuaValue.number (-1)], 0) := by
    unfold hookEvent
    simp only [if_pos hr, List.drop_length]
  simp only [callBinding, cfunction, hh]
  simp

theorem addEventListener_wrong_argc_yields_no_value_witness :
    [LuaValue.str "Update"].length ≠ 2 ∧
    (callBinding demoEnv Binding.addEventListener [LuaValue.str "Update"] initial).2.2 = [] :=
  ⟨by decide,
   (addEventListener_wrong_argc_yields_no_value demoEnv initial [LuaValue.str "Update"]
      (by decide)).2.1⟩

/-- C2 as stated fails for a name with an embedded NUL character: the
call `addEventListener("Up\0date", f)` hands back 1, yet the sequence of that
name gains nothing and the reference goes to the sequence of "Up", the part
of the name before the NUL (`strdup` reads a C string). -/
theorem addEventListener_registers_counterexample :
    (callBinding demoEnv Binding.addEventListener
      [LuaValue.str "Up\x00date", LuaValue.func 3] initial).2.2 = [LuaValue.number 1] ∧
    hooksOf (callBinding demoEnv Binding.addEventListener
      [LuaValue.str "Up\x00date", LuaValue.func 3] initial).2.1.eventHooks "Up\x00date" = [] ∧
    hooksOf initial.eventHooks "Up" = [] ∧
    hooksOf (callBinding demoEnv Binding.addEventListener
      [LuaValue.str "Up\x00date", LuaValue.func 3] initial).2.1.eventHooks "Up" = [3] ∧
    ¬ ((∃ id, hooksOf (callBinding demoEnv Binding.addEventListener
          [LuaValue.str "Up\x00date", LuaValue.func 3] initial).2.1.eventHooks "Up\x00date"
          = hooksOf initial.eventHooks "Up\x00date" ++ [id]) ∧
       ∀ k, k ≠ "Up\x00date" →
         hooksOf (callBinding demoEnv Binding.addEventListener
           [LuaValue.str "Up\x00date", LuaValue.func 3] initial).2.1.eventHooks k
           = hooksOf initial.eventHooks k) := by
  have h1 : hooksOf (callBinding demoEnv Binding.addEventListener
      [LuaValue.str "Up\x00date", LuaValue.func 3] initial).2.1.eventHooks "Up\x00date" = [] := by
    decide
  refine ⟨by decide, h1, by decide, by decide, ?_⟩
  rintro ⟨⟨id, hid⟩, _⟩
  rw [h1] at hid
  simp at hid

/-- C2, amended: a call `addEventListener(E, f)` with exactly two arguments,
`E` a string without NUL character and the reference table within the range
of `int`, finishes, hands the script the single value 1, leaves the sequence
of `E` equal to the previous one followed by one reference that resolves to
`f` (a slot that did not exist before when `f` is not nil), and leaves the
sequence of every other name as it was. -/
theorem addEventListener_registers (env : Env) (h : Host) (E : String) (f : LuaValue)
    (hE : NulFree E) (hreg : h.registry.length + 1 < 2147483648) :
    (callBinding env Binding.addEventListener [LuaValue.str E, f] h).1 = Status.done ∧
    (callBinding env Binding.addEventListener [LuaValue.str E, f] h).2.2 = [LuaValue.number 1] ∧
    (∃ id,
      hooksOf (callBinding env Binding.addEventListener [LuaValue.str E, f] h).2.1.eventHooks E
        = hooksOf h.eventHooks E ++ [id] ∧
      rawgeti (callBinding env Binding.addEventListener [LuaValue.str E, f] h).2.1.registry id = f ∧
      (f ≠ LuaValue.nil → h.registry.length < id)) ∧
    ∀ k, k ≠ E →
      hooksOf (callBinding env Binding.addEventListener [LuaValue.str E, f] h).2.1.eventHooks k
        = hooksOf h.eventHooks k := by
  by_cases hf : f = LuaValue.nil
  · subst hf
    simp only [callBinding, cfunction, hookEvent, luaL_ref, lua_tostring, top,
      cstr_of_nulFree E hE]
    simp only [List.reverse_cons, List.reverse_nil, List.nil_append, List.cons_append,
      List.length_cons, List.length_nil, ne_eq, not_true_eq_false, if_false, if_true,
      List.headD_cons, List.drop_succ_cons, List.drop_zero, cstr_of_nulFree E hE]
    refine ⟨trivial, by simp, ⟨toHookID LUA_REFNIL, ?_, ?_, ?_⟩, ?_⟩
    · exact hooksOf_pushBack_same _ _ _
    · exact rawgeti_refnil _ hreg
    · intro hne; exact hne.elim
    · intro k hk; exact hooksOf_pushBack_other _ _ _ _ hk
  · simp only [callBinding, cfunction, hookEvent, luaL_ref, lua_tostring, top,
      cstr_of_nulFree E hE]
    simp only [List.reverse_cons, List.reverse_nil, List.nil_append, List.cons_append,
      List.length_cons, List.length_nil, ne_eq, not_true_eq_false, if_false, if_true,
      List.headD_cons, List.drop_succ_cons, List.drop_zero, hf, cstr_of_nulFree E hE]
    refine ⟨trivial, by simp, ⟨h.registry.length + 1, ?_, ?_, ?_⟩, ?_⟩
    · rw [toHookID_slot _ hreg]
      exact hooksOf_pushBack_same _ _ _
    · exact rawgeti_append_new _ _
    · intro _; omega
    · intro k hk; exact hooksOf_pushBack_other _ _ _ _ hk

theorem addEventListener_registers_witness :
    NulFree "Update" ∧ initial.registry.length + 1 < 2147483648 ∧
    (callBinding demoEnv Binding.addEventListener [LuaValue.str "Update", LuaValue.func 3]
      initial).2.2 = [LuaValue.number 1] :=
  ⟨by decide, by decide,
   (addEventListener_registers demoEnv initial "Update" (LuaValue.func 3)
      (by decide) (by decide)).2.1⟩

/-! ## What script code can do to the host -/

theorem Grows.refl (h : Host) : Grows h h where
  deltaTime := rfl
  cerr := rfl
  registry := ⟨[], by simp⟩
  hooks := fun k => ⟨[], by simp⟩
  present := fun _ hk => hk
  entries_le := le_refl _
  trace := ⟨[], by simp⟩

theorem Grows.trans {a b c : Host} (h1 : Grows a b) (h2 : Grows b c) : Grows a c where
  deltaTime := h2.deltaTime.trans h1.deltaTime
  cerr := h2.cerr.trans h1.cerr
  registry := by
    obtain ⟨e1, he1⟩ := h1.registry
    obtain ⟨e2, he2⟩ := h2.registry
    exact ⟨e1 ++ e2, by rw [he2, he1, List.append_assoc]⟩
  hooks := by
    intro k
    obtain ⟨m1, hm1, hw1⟩ := h1.hooks k
    obtain ⟨m2, hm2, hw2⟩ := h2.hooks k
    obtain ⟨e2, he2⟩ := h2.registry
    refine ⟨m1 ++ m2, by rw [hm2, hm1, List.append_assoc], ?_⟩
    intro id hid hlen
    rcases List.mem_append.mp hid with hid | hid
    · have hb : b.registry.length ≤ c.registry.length := by rw [he2]; simp
      rcases hw1 id hid (by omega) with h | h
      · exact Or.inl (by omega)
      · exact Or.inr h
    · exact hw2 id hid hlen
  present := fun k hk => h2.present k (h1.present k hk)
  entries_le := le_trans h1.entries_le h2.entries_le
  trace := by
    obtain ⟨t1, ht1, hd1⟩ := h1.trace
    obtain ⟨t2, ht2, hd2⟩ := h2.trace
    refine ⟨t1 ++ t2, by rw [ht2, ht1, List.append_assoc], ?_⟩
    intro x hx
    rcases List.mem_append.mp hx with hx | hx
    · exact hd1 x hx
    · rw [← h1.deltaTime]; exact hd2 x hx

theorem luaL_ref_registry (registry : List LuaValue) (v : LuaValue) :
    ∃ ext, (luaL_ref registry v).2 = registry ++ ext := by
  unfold luaL_ref
  by_cases hv : v = LuaValue.nil
  · exact ⟨[], by simp [hv]⟩
  · exact ⟨[v], by simp [hv]⟩

theorem luaL_ref_id (registry : List LuaValue) (v : LuaValue)
    (hlen : (luaL_ref registry v).2.length < 4294967295) :
    toHookID (luaL_ref registry v).1 ≤ (luaL_ref registry v).2.length ∨
    toHookID (luaL_ref registry v).1 = 4294967295 := by
  unfold luaL_ref at hlen ⊢
  by_cases hv : v = LuaValue.nil
  · right
    simp only [hv, if_true]
    decide
  · left
    simp only [hv, if_false] at hlen ⊢
    simp only [List.length_append, List.length_singleton] at hlen ⊢
    unfold toHookID
    have h1 : (((registry.length + 1 : Nat) : Int)) % 4294967296
        = ((registry.length + 1 : Nat) : Int) := by
      apply Int.emod_eq_of_lt <;> omega
    rw [h1]
    simp

theorem hookEvent_crash (env : Env) (h : Host) (frame : List LuaValue)
    (hargc : frame.length = 2) (hs : lua_tostring env (top (frame.drop 1)) = none) :
    hookEvent env h frame =
      (Status.crashed, { h with registry := (luaL_ref h.registry (top frame)).2 },
        frame.drop 1, 0) := by
  unfold hookEvent
  simp only [ne_eq, hargc, not_true_eq_false, if_false]
  rw [hs]

theorem hookEvent_ok (env : Env) (h : Host) (frame : List LuaValue) (s : String)
    (hargc : frame.length = 2) (hs : lua_tostring env (top (frame.drop 1)) = some s) :
    hookEvent env h frame =
      (Status.done,
        { h with registry := (luaL_ref h.registry (top frame)).2,
                 eventHooks := pushBack h.eventHooks (cstr s)
                   (toHookID (luaL_ref h.registry (top frame)).1) },
        LuaValue.number 1 :: (frame.drop 1).drop 1, 1) := by
  unfold hookEvent
  simp only [ne_eq, hargc, not_true_eq_false, if_false]
  rw [hs]

theorem hookEvent_wrong (env : Env) (h : Host) (frame : List LuaValue)
    (hargc : frame.length ≠ 2) :
    hookEvent env h frame = (Status.done, h, [LuaValue.number (-1)], 0) := by
  unfold hookEvent
  simp only [if_pos hargc, List.drop_length]

theorem hookEvent_grows (env : Env) (h : Host) (frame : List LuaValue) :
    Grows h (hookEvent env h frame).2.1 := by
  unfold hookEvent
  by_cases hargc : frame.length = 2
  · simp only [ne_eq, hargc, not_true_eq_false, if_false]
    obtain ⟨ext, hext⟩ := luaL_ref_registry h.registry (top frame)
    cases hs : lua_tostring env (top (List.drop 1 frame)) with
    | none =>
      exact { deltaTime := rfl, cerr := rfl, registry := ⟨ext, hext⟩,
              hooks := fun k => ⟨[], by simp⟩, present := fun _ hk => hk,
              entries_le := le_refl _, trace := ⟨[], by simp⟩ }
    | some s =>
      refine { deltaTime := rfl, cerr := rfl, registry := ⟨ext, hext⟩,
               hooks := ?_, present := ?_, entries_le := ?_, trace := ⟨[], by simp⟩ }
      · intro k
        by_cases hk : k = cstr s
        · subst hk
          refine ⟨[toHookID (luaL_ref h.registry (top frame)).1],
            hooksOf_pushBack_same _ _ _, ?_⟩
          intro id hid hlen
          simp only [List.mem_singleton] at hid
          subst hid
          exact luaL_ref_id _ _ hlen
        · exact ⟨[], by simpa using hooksOf_pushBack_other _ _ _ _ hk, by simp⟩
      · intro k hk
        exact access_pushBack_of_access _ _ _ _ hk
      · show entries h.eventHooks ≤ entries (pushBack h.eventHooks _ _)
        rw [entries_pushBack]
        omega
  · simp only [ne_eq, hargc, not_false_eq_true, if_true]
    exact Grows.refl h

theorem cfunction_grows (env : Env) (b : Binding) (h : Host) (frame : List LuaValue) :
    Grows h (cfunction env b h frame).2.1 := by
  cases b with
  | addEventListener => exact hookEvent_grows env h frame
  | getTimeMillis => exact Grows.refl h
  | getDeltaTime => exact Grows.refl h

theorem Grows.observe {h h' : Host} (g : Grows h h') (o : Obs)
    (ho : ∀ x, o = Obs.returned Binding.getDeltaTime x → x = [LuaValue.number h.deltaTime]) :
    Grows h { h' with trace := h'.trace ++ [o] } where
  deltaTime := g.deltaTime
  cerr := g.cerr
  registry := g.registry
  hooks := g.hooks
  present := g.present
  entries_le := g.entries_le
  trace := by
    obtain ⟨t, ht, hd⟩ := g.trace
    refine ⟨t ++ [o], by simp [ht], ?_⟩
    intro x hx
    rcases List.mem_append.mp hx with hx | hx
    · exact hd x hx
    · exact ho x (List.mem_singleton.mp hx).symm

theorem cfunction_frame (env : Env) (b : Binding) (h : Host) (frame : List LuaValue) :
    (cfunction env b h frame).2.1.stack = h.stack ∧
    (cfunction env b h frame).2.1.trace = h.trace := by
  cases b with
  | addEventListener =>
    simp only [cfunction, hookEvent]
    by_cases hargc : frame.length = 2
    · simp only [ne_eq, hargc, not_true_eq_false, if_false]
      cases lua_tostring env (top (List.drop 1 frame)) <;> exact ⟨rfl, rfl⟩
    · simp only [ne_eq, hargc, not_false_eq_true, if_true, and_self]
  | getTimeMillis => exact ⟨rfl, rfl⟩
  | getDeltaTime => exact ⟨rfl, rfl⟩

theorem cfunction_same (env : Env) (b : Binding) (h : Host) (frame : List LuaValue)
    (hd : (cfunction env b h frame).1 = Status.done)
    (he : entries (cfunction env b h frame).2.1.eventHooks = entries h.eventHooks) :
    (cfunction env b h frame).2.1.eventHooks = h.eventHooks ∧
    (cfunction env b h frame).2.1.registry = h.registry := by
  cases b with
  | addEventListener =>
    simp only [cfunction] at hd he ⊢
    by_cases hargc : frame.length = 2
    · cases hs : lua_tostring env (top (List.drop 1 frame)) with
      | none =>
        rw [hookEvent_crash env h frame hargc hs] at hd
        cases hd
      | some s =>
        rw [hookEvent_ok env h frame s hargc hs] at he
        simp only [entries_pushBack] at he
        omega
    · rw [hookEvent_wrong env h frame hargc]
      exact ⟨rfl, rfl⟩
  | getTimeMillis => exact ⟨rfl, rfl⟩
  | getDeltaTime => exact ⟨rfl, rfl⟩

theorem callBinding_state (env : Env) (b : Binding) (args : List LuaValue) (h : Host) :
    (callBinding env b args h).1 = (cfunction env b h args.reverse).1 ∧
    ((callBinding env b args h).2.1 = (cfunction env b h args.reverse).2.1 ∨
     (callBinding env b args h).2.1 =
       { (cfunction env b h args.reverse).2.1 with
         trace := (cfunction env b h args.reverse).2.1.trace ++
           [Obs.returned b ((cfunction env b h args.reverse).2.2.1.take
              (cfunction env b h args.reverse).2.2.2).reverse] }) := by
  unfold callBinding
  cases hst : (cfunction env b h args.reverse).1 <;> simp [hst]

theorem callBinding_grows (env : Env) (b : Binding) (args : List LuaValue) (h : Host) :
    Grows h (callBinding env b args h).2.1 := by
  have hg := cfunction_grows env b h args.reverse
  rcases (callBinding_state env b args h).2 with he | he
  · rw [he]; exact hg
  · rw [he]
    apply hg.observe
    intro x hx
    cases b with
    | addEventListener => simp at hx
    | getTimeMillis => simp at hx
    | getDeltaTime =>
      simp only [Obs.returned.injEq, true_and] at hx
      rw [← hx]
      simp [cfunction, luaGetDeltaTime]

theorem callBinding_frame (env : Env) (b : Binding) (args : List LuaValue) (h : Host) :
    (callBinding env b args h).2.1.stack = h.stack ∧
    invocations (callBinding env b args h).2.1.trace = invocations h.trace := by
  have hf := cfunction_frame env b h args.reverse
  rcases (callBinding_state env b args h).2 with he | he
  · rw [he, hf.1, hf.2]; exact ⟨rfl, rfl⟩
  · rw [he]
    refine ⟨hf.1, ?_⟩
    simp only [invocations_append, hf.2]
    simp [invocations]

theorem callBinding_same (env : Env) (b : Binding) (args : List LuaValue) (h : Host)
    (hd : (callBinding env b args h).1 = Status.done)
    (he : entries (callBinding env b args h).2.1.eventHooks = entries h.eventHooks) :
    (callBinding env b args h).2.1.eventHooks = h.eventHooks ∧
    (callBinding env b args h).2.1.registry = h.registry := by
  rw [(callBinding_state env b args h).1] at hd
  rcases (callBinding_state env b args h).2 with hs | hs
  · rw [hs] at he ⊢
    exact cfunction_same env b h args.reverse hd he
  · rw [hs] at he ⊢
    exact cfunction_same env b h args.reverse hd he

theorem runScript_grows (env : Env) (s : Script) (h : Host) :
    Grows h (runScript env s h).2.1 := by
  induction s generalizing h with
  | ret vals => exact Grows.refl h
  | error msg => exact Grows.refl h
  | call b args k ih =>
    have hg := callBinding_grows env b args h
    unfold runScript
    cases hst : (callBinding env b args h).1 with
    | done => simp only [hst]; exact hg.trans (ih _ _)
    | crashed => simp only [hst]; exact hg
    | outOfFuel => simp only [hst]; exact hg

theorem runScript_frame (env : Env) (s : Script) (h : Host) :
    (runScript env s h).2.1.stack = h.stack ∧
    invocations (runScript env s h).2.1.trace = invocations h.trace := by
  induction s generalizing h with
  | ret vals => exact ⟨rfl, rfl⟩
  | error msg => exact ⟨rfl, rfl⟩
  | call b args k ih =>
    have hf := callBinding_frame env b args h
    unfold runScript
    cases hst : (callBinding env b args h).1 with
    | done =>
      simp only [hst]
      have := ih (callBinding env b args h).2.2 (callBinding env b args h).2.1
      exact ⟨this.1.trans hf.1, this.2.trans hf.2⟩
    | crashed => simp only [hst]; exact hf
    | outOfFuel => simp only [hst]; exact hf

theorem runScript_same (env : Env) (s : Script) (h : Host)
    (hd : (runScript env s h).1 = Status.done)
    (he : entries (runScript env s h).2.1.eventHooks = entries h.eventHooks) :
    (runScript env s h).2.1.eventHooks = h.eventHooks ∧
    (runScript env s h).2.1.registry = h.registry := by
  induction s generalizing h with
  | ret vals => exact ⟨rfl, rfl⟩
  | error msg => exact ⟨rfl, rfl⟩
  | call b args k ih =>
    have hg := callBinding_grows env b args h
    unfold runScript at hd he ⊢
    cases hst : (callBinding env b args h).1 with
    | done =>
      simp only [hst] at hd he ⊢
      have hg2 := runScript_grows env (k (callBinding env b args h).2.2)
        (callBinding env b args h).2.1
      have h1 := hg.entries_le
      have h2 := hg2.entries_le
      have hs2 := ih _ _ hd (by omega)
      have hs1 := callBinding_same env b args h hst (by omega)
      exact ⟨hs2.1.trans hs1.1, hs2.2.trans hs1.2⟩
    | crashed => simp [hst] at hd
    | outOfFuel => simp [hst] at hd

theorem invoke_fields (env : Env) (fid : Nat) (t : Host) :
    (invoke env fid t).1 =
      (runScript env (env.code fid (t.trace ++ [Obs.invoked fid]))
        { t with stack := t.stack.drop 1, trace := t.trace ++ [Obs.invoked fid] }).1 ∧
    ∃ st, (invoke env fid t).2 =
      { (runScript env (env.code fid (t.trace ++ [Obs.invoked fid]))
          { t with stack := t.stack.drop 1, trace := t.trace ++ [Obs.invoked fid] }).2.1
        with stack := st } ∧
      ((invoke env fid t).1 = Status.done → ∃ pushed, st = pushed ++ t.stack.drop 1) := by
  have hf := runScript_frame env (env.code fid (t.trace ++ [Obs.invoked fid]))
    { t with stack := t.stack.drop 1, trace := t.trace ++ [Obs.invoked fid] }
  unfold invoke
  cases hst : (runScript env (env.code fid (t.trace ++ [Obs.invoked fid]))
        { t with stack := t.stack.drop 1, trace := t.trace ++ [Obs.invoked fid] }).1 with
  | done =>
    cases ho : (runScript env (env.code fid (t.trace ++ [Obs.invoked fid]))
        { t with stack := t.stack.drop 1, trace := t.trace ++ [Obs.invoked fid] }).2.2 with
    | values vals =>
      simp only [hst, ho]
      exact ⟨trivial, _, rfl, fun _ => ⟨vals.reverse, by rw [hf.1]⟩⟩
    | raised msg =>
      simp only [hst, ho]
      exact ⟨trivial, _, rfl, fun _ => ⟨[msg], by rw [hf.1]; rfl⟩⟩
  | crashed =>
    simp only [hst]
    exact ⟨trivial, _, rfl, fun hd => by cases hd⟩
  | outOfFuel =>
    simp only [hst]
    exact ⟨trivial, _, rfl, fun hd => by cases hd⟩

theorem Grows.of_fields {h a b : Host} (g : Grows h a)
    (h1 : b.eventHooks = a.eventHooks) (h2 : b.deltaTime = a.deltaTime)
    (h3 : b.registry = a.registry) (h4 : b.cerr = a.cerr) (h5 : b.trace = a.trace) :
    Grows h b where
  deltaTime := by rw [h2]; exact g.deltaTime
  cerr := by rw [h4]; exact g.cerr
  registry := by rw [h3]; exact g.registry
  hooks := by rw [h1, h3]; exact g.hooks
  present := by rw [h1]; exact g.present
  entries_le := by rw [h1]; exact g.entries_le
  trace := by rw [h5]; exact g.trace

theorem invoke_grows (env : Env) (fid : Nat) (t : Host) : Grows t (invoke env fid t).2 := by
  obtain ⟨_, st, hst, _⟩ := invoke_fields env fid t
  have hg := runScript_grows env (env.code fid (t.trace ++ [Obs.invoked fid]))
    { t with stack := t.stack.drop 1, trace := t.trace ++ [Obs.invoked fid] }
  have h0 : Grows t { t with stack := t.stack.drop 1, trace := t.trace ++ [Obs.invoked fid] } :=
    (Grows.refl t).of_fields rfl rfl rfl rfl rfl |>.observe (Obs.invoked fid) (by simp)
      |>.of_fields rfl rfl rfl rfl rfl
  rw [hst]
  exact (h0.trans hg).of_fields rfl rfl rfl rfl rfl

theorem invoke_invocations (env : Env) (fid : Nat) (t : Host) :
    invocations (invoke env fid t).2.trace = invocations t.trace ++ [fid] := by
  obtain ⟨_, st, hst, _⟩ := invoke_fields env fid t
  have hf := runScript_frame env (env.code fid (t.trace ++ [Obs.invoked fid]))
    { t with stack := t.stack.drop 1, trace := t.trace ++ [Obs.invoked fid] }
  rw [hst]
  show invocations (runScript env _ _).2.1.trace = _
  rw [hf.2]
  simp [invocations_append, invocations]

theorem invoke_stack (env : Env) (fid : Nat) (t : Host)
    (hd : (invoke env fid t).1 = Status.done) :
    ∃ pushed, (invoke env fid t).2.stack = pushed ++ t.stack.drop 1 := by
  obtain ⟨_, st, hst, hp⟩ := invoke_fields env fid t
  obtain ⟨pushed, hpushed⟩ := hp hd
  exact ⟨pushed, by rw [hst]; exact hpushed⟩

theorem invoke_same (env : Env) (fid : Nat) (t : Host)
    (hd : (invoke env fid t).1 = Status.done)
    (he : (invoke env fid t).2.eventHooks = t.eventHooks) :
    (invoke env fid t).2.registry = t.registry := by
  obtain ⟨h1, st, hst, _⟩ := invoke_fields env fid t
  rw [h1] at hd
  rw [hst] at he ⊢
  have he2 : (runScript env (env.code fid (t.trace ++ [Obs.invoked fid]))
        { t with stack := t.stack.drop 1, trace := t.trace ++ [Obs.invoked fid] }).2.1.eventHooks
      = t.eventHooks := he
  exact (runScript_same env _ _ hd (by rw [he2])).2

theorem pcall_grows (env : Env) (h : Host) : Grows h (pcall env h).2 := by
  unfold pcall
  split
  · exact invoke_grows env _ h
  · exact (Grows.refl h).of_fields rfl rfl rfl rfl rfl

theorem entries_access (m : List (String × List Nat)) (key : String) :
    entries (access m key) = entries m := by
  induction m with
  | nil => simp [access, entries]
  | cons p rest ih =>
    obtain ⟨a, v⟩ := p
    by_cases ha : a = key
    · simp [access, ha]
    · simp [access, ha, entries, ih]

theorem access_access_of_access (m : List (String × List Nat)) (key k : String)
    (h : access m k = m) : access (access m key) k = access m key := by
  induction m with
  | nil => simp [access] at h
  | cons p rest ih =>
    obtain ⟨a, v⟩ := p
    by_cases ha : a = key
    · simp only [access, ha, if_true] at h ⊢
      exact h
    · by_cases hak : a = k
      · subst hak
        simp [access, ha]
      · simp only [access, hak, if_false, List.cons.injEq, true_and] at h
        simp [access, ha, hak, ih h]

theorem access_grows (h : Host) (key : String) :
    Grows h { h with eventHooks := access h.eventHooks key } where
  deltaTime := rfl
  cerr := rfl
  registry := ⟨[], by simp⟩
  hooks := fun k => ⟨[], by simp [hooksOf_access], by simp⟩
  present := fun k hk => access_access_of_access _ _ _ hk
  entries_le := by simp [entries_access]
  trace := ⟨[], by simp⟩

/-! ## The dispatch loop, one iteration at a time -/

theorem fireLoop_exit (env : Env) (E : String) (fuel i : Nat) (h : Host)
    (hp : access h.eventHooks E = h.eventHooks)
    (hi : ¬ i < (hooksOf h.eventHooks E).length) :
    fireLoop env E (fuel + 1) i h = (Status.done, h) := by
  rw [fireLoop]
  simp only [hp, hi, if_false]

theorem fireLoop_call (env : Env) (E : String) (fuel i : Nat) (h : Host) (fid : Nat)
    (hp : access h.eventHooks E = h.eventHooks)
    (hi : i < (hooksOf h.eventHooks E).length)
    (hv : rawgeti h.registry ((hooksOf h.eventHooks E).getD i 0) = LuaValue.func fid) :
    fireLoop env E (fuel + 1) i h =
      match (invoke env fid { h with stack := LuaValue.func fid :: h.stack }).1 with
      | Status.done =>
        fireLoop env E fuel ((i + 1) % 4294967296)
          (invoke env fid { h with stack := LuaValue.func fid :: h.stack }).2
      | st => (st, (invoke env fid { h with stack := LuaValue.func fid :: h.stack }).2) := by
  rw [fireLoop]
  simp only [hp, hi, if_true, hv, top, List.headD_cons, isfunction, pcall]

theorem fireLoop_skip (env : Env) (E : String) (fuel i : Nat) (h : Host)
    (hp : access h.eventHooks E = h.eventHooks)
    (hi : i < (hooksOf h.eventHooks E).length)
    (hv : funcId (rawgeti h.registry ((hooksOf h.eventHooks E).getD i 0)) = none) :
    fireLoop env E (fuel + 1) i h = fireLoop env E fuel ((i + 1) % 4294967296) h := by
  rw [fireLoop]
  have hnf : isfunction (rawgeti h.registry ((hooksOf h.eventHooks E).getD i 0)) = false := by
    cases hr : rawgeti h.registry ((hooksOf h.eventHooks E).getD i 0) <;>
      simp_all [funcId, isfunction]
  simp only [hp, hi, if_true, top, List.headD_cons, hnf,
    Bool.false_eq_true, if_false, List.drop_succ_cons, List.drop_zero]

theorem funcId_cases (v : LuaValue) : funcId v = none ∨ ∃ fid, v = LuaValue.func fid := by
  cases v <;> simp [funcId]

theorem callbacksOf_drop (registry : List LuaValue) (ids : List Nat) (i : Nat)
    (hi : i < ids.length) :
    callbacksOf registry (ids.drop i) =
      (funcId (rawgeti registry (ids.getD i 0))).toList ++ callbacksOf registry (ids.drop (i + 1)) := by
  have hd : ids.drop i = ids.getD i 0 :: ids.drop (i + 1) := by
    rw [List.getD_eq_getElem?_getD, List.getElem?_eq_getElem hi]
    simp
  rw [hd]
  unfold callbacksOf
  cases hf : funcId (rawgeti registry (ids.getD i 0)) with
  | none => rw [List.filterMap_cons, hf]; rfl
  | some fid => rw [List.filterMap_cons, hf]; rfl

theorem getD_mem (ids : List Nat) (i : Nat) (hi : i < ids.length) : ids.getD i 0 ∈ ids := by
  rw [List.getD_eq_getElem?_getD, List.getElem?_eq_getElem hi]
  simp

theorem fireLoop_grows (env : Env) (E : String) (fuel i : Nat) (h : Host) :
    Grows h (fireLoop env E fuel i h).2 := by
  induction fuel generalizing i h with
  | zero => exact Grows.refl h
  | succ fuel ih =>
    have ha := access_grows h E
    rw [fireLoop]
    simp only []
    split
    · split
      · split
        · refine Grows.trans ?_ (ih _ _)
          refine Grows.trans ?_ (pcall_grows env _)
          exact ha.of_fields rfl rfl rfl rfl rfl
        · refine Grows.trans ?_ (pcall_grows env _)
          exact ha.of_fields rfl rfl rfl rfl rfl
      · refine Grows.trans ?_ (ih _ _)
        exact ha.of_fields rfl rfl rfl rfl rfl
    · exact ha

/-! ## Dispatch when callbacks leave the hook map alone -/

theorem fireLoop_quiet (env : Env) (E : String) (fuel : Nat) :
    ∀ (i : Nat) (h : Host),
    access h.eventHooks E = h.eventHooks →
    (hooksOf h.eventHooks E).length < 4294967296 →
    i ≤ (hooksOf h.eventHooks E).length →
    (hooksOf h.eventHooks E).length - i < fuel →
    (∀ id ∈ hooksOf h.eventHooks E, ∀ fid,
      rawgeti h.registry id = LuaValue.func fid → Quiet env fid) →
    (fireLoop env E fuel i h).1 = Status.done ∧
    (fireLoop env E fuel i h).2.eventHooks = h.eventHooks ∧
    (fireLoop env E fuel i h).2.registry = h.registry ∧
    (fireLoop env E fuel i h).2.deltaTime = h.deltaTime ∧
    (fireLoop env E fuel i h).2.cerr = h.cerr ∧
    invocations (fireLoop env E fuel i h).2.trace =
      invocations h.trace ++ callbacksOf h.registry ((hooksOf h.eventHooks E).drop i) ∧
    ∃ pushed, (fireLoop env E fuel i h).2.stack = pushed ++ h.stack := by
  induction fuel with
  | zero => intro i h _ _ _ hfuel; omega
  | succ fuel ih =>
    intro i h hp hlen hile hfuel hq
    by_cases hi : i < (hooksOf h.eventHooks E).length
    · have hmod : (i + 1) % 4294967296 = i + 1 := Nat.mod_eq_of_lt (by omega)
      have hdrop := callbacksOf_drop h.registry (hooksOf h.eventHooks E) i hi
      rcases funcId_cases (rawgeti h.registry ((hooksOf h.eventHooks E).getD i 0)) with hv | ⟨fid, hv⟩
      · rw [fireLoop_skip env E fuel i h hp hi hv, hmod]
        have := ih (i + 1) h hp hlen (by omega) (by omega) hq
        rw [hdrop, hv]
        simpa using this
      · have hquiet := hq _ (getD_mem _ i hi) fid hv
        obtain ⟨hdone, hsame⟩ := hquiet { h with stack := LuaValue.func fid :: h.stack }
        have hreg := invoke_same env fid _ hdone hsame
        have hg := invoke_grows env fid { h with stack := LuaValue.func fid :: h.stack }
        have hinv := invoke_invocations env fid { h with stack := LuaValue.func fid :: h.stack }
        obtain ⟨pushed, hpushed⟩ := invoke_stack env fid _ hdone
        rw [fireLoop_call env E fuel i h fid hp hi hv, hmod]
        simp only [hdone]
        have hsame2 : (invoke env fid { h with stack := LuaValue.func fid :: h.stack }).2.eventHooks
            = h.eventHooks := hsame
        have hreg2 : (invoke env fid { h with stack := LuaValue.func fid :: h.stack }).2.registry
            = h.registry := hreg
        have := ih (i + 1) (invoke env fid { h with stack := LuaValue.func fid :: h.stack }).2
          (by rw [hsame2]; exact hp) (by rw [hsame2]; exact hlen)
          (by rw [hsame2]; omega) (by rw [hsame2]; omega)
          (by rw [hsame2, hreg2]; exact hq)
        rw [hsame2, hreg2, hinv] at this
        obtain ⟨h1, h2, h3, h4, h5, h6, ⟨p2, h7⟩⟩ := this
        refine ⟨h1, h2, h3, h4.trans hg.deltaTime, h5.trans hg.cerr, ?_, ?_⟩
        · rw [h6, hdrop, hv]
          simp [funcId]
        · refine ⟨p2 ++ pushed, ?_⟩
          rw [h7, hpushed]
          simp
    · rw [fireLoop_exit env E fuel i h hp hi]
      have : (hooksOf h.eventHooks E).drop i = [] := List.drop_eq_nil_of_le (by omega)
      rw [this]
      exact ⟨rfl, rfl, rfl, rfl, rfl, by simp [callbacksOf], ⟨[], by simp⟩⟩

theorem fireEvent_quiet (env : Env) (E : String) (fuel : Nat) (h : Host)
    (hlen : (hooksOf h.eventHooks E).length < 4294967296)
    (hfuel : (hooksOf h.eventHooks E).length < fuel)
    (hq : ∀ id ∈ hooksOf h.eventHooks E, ∀ fid,
      rawgeti h.registry id = LuaValue.func fid → Quiet env fid) :
    (fireEvent env fuel E h).1 = Status.done ∧
    (fireEvent env fuel E h).2.eventHooks = access h.eventHooks E ∧
    (fireEvent env fuel E h).2.registry = h.registry ∧
    (fireEvent env fuel E h).2.deltaTime = h.deltaTime ∧
    (fireEvent env fuel E h).2.cerr = h.cerr ∧
    invocations (fireEvent env fuel E h).2.trace =
      invocations h.trace ++ callbacksOf h.registry (hooksOf h.eventHooks E) ∧
    ∃ pushed, (fireEvent env fuel E h).2.stack = pushed ++ h.stack := by
  unfold fireEvent
  simp only [hooksOf_access]
  by_cases hpos : (hooksOf h.eventHooks E).length > 0
  · simp only [hpos, if_true]
    have := fireLoop_quiet env E fuel 0 { h with eventHooks := access h.eventHooks E }
      (access_access _ _) (by simpa [hooksOf_access] using hlen) (Nat.zero_le _)
      (by simpa [hooksOf_access] using hfuel) (by simpa [hooksOf_access] using hq)
    simpa [hooksOf_access] using this
  · simp only [hpos, if_false]
    have hnil : hooksOf h.eventHooks E = [] := by
      apply List.eq_nil_of_length_eq_zero; omega
    simp [hnil, callbacksOf]

/-! ## Dispatch when callbacks may register further callbacks -/

theorem cfunction_status (env : Env) (b : Binding) (h : Host) (frame : List LuaValue) :
    (cfunction env b h frame).1 ≠ Status.outOfFuel := by
  cases b with
  | addEventListener =>
    simp only [cfunction]
    by_cases hargc : frame.length = 2
    · cases hs : lua_tostring env (top (List.drop 1 frame)) with
      | none => rw [hookEvent_crash env h frame hargc hs]; simp
      | some s => rw [hookEvent_ok env h frame s hargc hs]; simp
    · rw [hookEvent_wrong env h frame hargc]; simp
  | getTimeMillis => simp [cfunction, luaGetTimeMillis]
  | getDeltaTime => simp [cfunction, luaGetDeltaTime]

theorem runScript_status (env : Env) (s : Script) (h : Host) :
    (runScript env s h).1 ≠ Status.outOfFuel := by
  induction s generalizing h with
  | ret vals => simp [runScript]
  | error msg => simp [runScript]
  | call b args k ih =>
    have hc := cfunction_status env b h args.reverse
    rw [← (callBinding_state env b args h).1] at hc
    unfold runScript
    cases hst : (callBinding env b args h).1 with
    | done => simp only [hst]; exact ih _ _
    | crashed => simp [hst]
    | outOfFuel => exact absurd hst hc

theorem invoke_status (env : Env) (fid : Nat) (t : Host) :
    (invoke env fid t).1 ≠ Status.outOfFuel := by
  rw [(invoke_fields env fid t).1]
  exact runScript_status env _ _

theorem rawgeti_stable (registry ext : List LuaValue) (id : Nat)
    (hid : id ≤ registry.length ∨ id = 4294967295)
    (hlen : (registry ++ ext).length < 4294967295) :
    rawgeti (registry ++ ext) id = rawgeti registry id := by
  simp only [List.length_append] at hlen
  unfold rawgeti
  by_cases h0 : id = 0
  · simp [h0]
  · simp only [h0, if_false, List.getD_eq_getElem?_getD]
    rcases hid with hid | hid
    · rw [List.getElem?_append_left (by omega)]
    · rw [List.getElem?_eq_none (by simp; omega), List.getElem?_eq_none (by omega)]

theorem callbacksOf_step (R ext : List LuaValue) (seq app : List Nat) (i n : Nat)
    (hi : i < seq.length)
    (hid : seq.getD i 0 ≤ R.length ∨ seq.getD i 0 = 4294967295)
    (hlen : (R ++ ext).length < 4294967295) :
    callbacksOf (R ++ ext) (((seq ++ app).drop i).take (n + 1)) =
      (funcId (rawgeti R (seq.getD i 0))).toList ++
        callbacksOf (R ++ ext) (((seq ++ app).drop (i + 1)).take n) := by
  have hi2 : i < (seq ++ app).length := by simp; omega
  have hd : (seq ++ app).drop i = seq.getD i 0 :: (seq ++ app).drop (i + 1) := by
    rw [List.getD_eq_getElem?_getD, List.getElem?_eq_getElem hi]
    rw [List.drop_eq_getElem_cons hi2, List.getElem_append_left hi]
    simp
  rw [hd, List.take_succ_cons]
  unfold callbacksOf
  rw [List.filterMap_cons, rawgeti_stable R ext _ hid hlen]
  cases funcId (rawgeti R (seq.getD i 0)) <;> rfl

theorem fireLoop_general (env : Env) (E : String) (fuel : Nat) :
    ∀ (i : Nat) (h : Host),
    access h.eventHooks E = h.eventHooks →
    i ≤ (hooksOf h.eventHooks E).length →
    i + fuel < 4294967296 →
    (∀ id ∈ hooksOf h.eventHooks E, id ≤ h.registry.length ∨ id = 4294967295) →
    (fireLoop env E fuel i h).2.registry.length < 4294967295 →
    ∃ n, n ≤ fuel ∧ i + n ≤ (hooksOf (fireLoop env E fuel i h).2.eventHooks E).length ∧
      invocations (fireLoop env E fuel i h).2.trace =
        invocations h.trace ++ callbacksOf (fireLoop env E fuel i h).2.registry
          (((hooksOf (fireLoop env E fuel i h).2.eventHooks E).drop i).take n) ∧
      ((fireLoop env E fuel i h).1 = Status.done →
        i + n = (hooksOf (fireLoop env E fuel i h).2.eventHooks E).length) ∧
      ((fireLoop env E fuel i h).1 = Status.outOfFuel → n = fuel) := by
  induction fuel with
  | zero =>
    intro i h _ hile _ _ _
    exact ⟨0, le_refl _, by simpa [fireLoop] using hile, by simp [fireLoop, callbacksOf],
      by simp [fireLoop], by simp⟩
  | succ fuel ih =>
    intro i h hp hile hwrap hwf hbound
    by_cases hi : i < (hooksOf h.eventHooks E).length
    · have hmod : (i + 1) % 4294967296 = i + 1 := Nat.mod_eq_of_lt (by omega)
      have hwfi := hwf _ (getD_mem _ i hi)
      rcases funcId_cases (rawgeti h.registry ((hooksOf h.eventHooks E).getD i 0)) with hv | ⟨fid, hv⟩
      · rw [fireLoop_skip env E fuel i h hp hi hv, hmod] at hbound ⊢
        have hg := fireLoop_grows env E fuel (i + 1) h
        obtain ⟨ext, hext⟩ := hg.registry
        obtain ⟨app, happ, _⟩ := hg.hooks E
        obtain ⟨n, hn, hin, hinv, hdone, hout⟩ := ih (i + 1) h hp (by omega) (by omega) hwf hbound
        refine ⟨n + 1, by omega, by omega, ?_, fun hd => by have := hdone hd; omega,
          fun ho => by have := hout ho; omega⟩
        rw [hinv, happ, hext, callbacksOf_step h.registry ext _ app i n hi hwfi
          (by rw [← hext]; exact hbound), hv]
        simp
      · have hg1 := invoke_grows env fid { h with stack := LuaValue.func fid :: h.stack }
        have hinv1 := invoke_invocations env fid { h with stack := LuaValue.func fid :: h.stack }
        have hstep := fireLoop_call env E fuel i h fid hp hi hv
        rw [hmod] at hstep
        cases hst : (invoke env fid { h with stack := LuaValue.func fid :: h.stack }).1 with
        | done =>
          simp only [hst] at hstep
          rw [hstep] at hbound ⊢
          have hg2 := fireLoop_grows env E fuel (i + 1)
            (invoke env fid { h with stack := LuaValue.func fid :: h.stack }).2
          have hg := hg1.trans hg2
          obtain ⟨ext, hext⟩ := hg.registry
          obtain ⟨app, happ, _⟩ := hg.hooks E
          obtain ⟨ext1, hext1⟩ := hg1.registry
          obtain ⟨ext2, hext2⟩ := hg2.registry
          obtain ⟨more, hmore, hmwf⟩ := hg1.hooks E
          have hlen2 : (invoke env fid { h with stack := LuaValue.func fid :: h.stack }).2.registry.length
              < 4294967295 := by
            have : (invoke env fid { h with stack := LuaValue.func fid :: h.stack }).2.registry.length
                ≤ (fireLoop env E fuel (i + 1)
                    (invoke env fid { h with stack := LuaValue.func fid :: h.stack }).2).2.registry.length := by
              rw [hext2]; simp
            omega
          have hwf2 : ∀ id ∈ hooksOf
              (invoke env fid { h with stack := LuaValue.func fid :: h.stack }).2.eventHooks E,
              id ≤ (invoke env fid { h with stack := LuaValue.func fid :: h.stack }).2.registry.length
                ∨ id = 4294967295 := by
            intro id hid
            rw [hmore] at hid
            rcases List.mem_append.mp hid with hid | hid
            · rcases hwf id hid with hw | hw
              · left
                rw [hext1]
                simp only [List.length_append]
                have : id ≤ h.registry.length := hw
                omega
              · exact Or.inr hw
            · exact hmwf id hid hlen2
          obtain ⟨n, hn, hin, hinv, hdone, hout⟩ :=
            ih (i + 1) (invoke env fid { h with stack := LuaValue.func fid :: h.stack }).2
              (hg1.present E hp)
              (by rw [hmore]; simp only [List.length_append]
                  have : i < (hooksOf h.eventHooks E).length := hi
                  omega)
              (by omega) hwf2 hbound
          refine ⟨n + 1, by omega, by omega, ?_, fun hd => by have := hdone hd; omega,
            fun ho => by have := hout ho; omega⟩
          have hext' : (fireLoop env E fuel (i + 1)
              (invoke env fid { h with stack := LuaValue.func fid :: h.stack }).2).2.registry
              = h.registry ++ ext := hext
          have happ' : hooksOf (fireLoop env E fuel (i + 1)
              (invoke env fid { h with stack := LuaValue.func fid :: h.stack }).2).2.eventHooks E
              = hooksOf h.eventHooks E ++ app := happ
          rw [hinv, hinv1, happ', hext', callbacksOf_step h.registry ext _ app i n hi hwfi
            (by rw [← hext']; exact hbound), hv]
          simp [funcId]
        | crashed =>
          simp only [hst] at hstep
          rw [hstep] at hbound ⊢
          obtain ⟨ext1, hext1⟩ := hg1.registry
          obtain ⟨more, hmore, _⟩ := hg1.hooks E
          have hext' : (invoke env fid { h with stack := LuaValue.func fid :: h.stack }).2.registry
              = h.registry ++ ext1 := hext1
          have hmore' : hooksOf
              (invoke env fid { h with stack := LuaValue.func fid :: h.stack }).2.eventHooks E
              = hooksOf h.eventHooks E ++ more := hmore
          refine ⟨1, by omega, ?_, ?_, fun hd => (by cases hd), fun ho => (by cases ho)⟩
          · show i + 1 ≤ (hooksOf
              (invoke env fid { h with stack := LuaValue.func fid :: h.stack }).2.eventHooks E).length
            rw [hmore']
            simp only [List.length_append]
            omega
          · show invocations
              (invoke env fid { h with stack := LuaValue.func fid :: h.stack }).2.trace = _
            rw [hinv1]
            show _ = invocations h.trace ++ callbacksOf
              (invoke env fid { h with stack := LuaValue.func fid :: h.stack }).2.registry
              (((hooksOf (invoke env fid { h with stack := LuaValue.func fid :: h.stack }).2.eventHooks
                E).drop i).take 1)
            rw [hmore', hext', callbacksOf_step h.registry ext1 _ more i 0 hi hwfi
              (by rw [← hext']; exact hbound), hv]
            simp [funcId, callbacksOf]
        | outOfFuel => exact absurd hst (invoke_status env fid _)
    · rw [fireLoop_exit env E fuel i h hp hi] at hbound ⊢
      exact ⟨0, by omega, by simpa using hile, by simp [callbacksOf], fun _ => (by simp; omega),
        fun ho => (by cases ho)⟩

/-! ## Dispatch: the claims -/

theorem callbacksOf_of_map (registry : List LuaValue) (ids fids : List Nat)
    (h : ids.map (rawgeti registry) = fids.map LuaValue.func) :
    callbacksOf registry ids = fids := by
  induction ids generalizing fids with
  | nil =>
    cases fids with
    | nil => rfl
    | cons a rest => simp at h
  | cons id rest ih =>
    cases fids with
    | nil => simp at h
    | cons a fs =>
      simp only [List.map_cons, List.cons.injEq] at h
      unfold callbacksOf
      rw [List.filterMap_cons, h.1]
      simp only [funcId]
      exact congrArg _ (ih fs h.2)

theorem quiet_demo_1 : Quiet demoEnv 1 := by
  intro t
  simp [invoke, demoEnv, runScript]

theorem quiet_demo_4 : Quiet demoEnv 4 := by
  intro t
  simp [invoke, demoEnv, runScript, callBinding, cfunction, luaGetDeltaTime]

/-- C1: if the sequence of `E` holds N references that resolve, in
order, to the functions `fids`, and none of these callbacks changes the hook
map while running, then `fireEvent(E)` finishes and the callbacks entered
during it are exactly `fids`, each once, in registration order; with N = 0
(also for a name never registered) nothing at all is observed by scripts. -/
theorem fireEvent_invokes_in_registration_order (env : Env) (E : String) (fuel : Nat)
    (h : Host) (fids : List Nat)
    (hres : (hooksOf h.eventHooks E).map (rawgeti h.registry) = fids.map LuaValue.func)
    (hquiet : ∀ fid ∈ fids, Quiet env fid)
    (hlen : fids.length < 4294967296) (hfuel : fids.length < fuel) :
    (fireEvent env fuel E h).1 = Status.done ∧
    invocations (fireEvent env fuel E h).2.trace = invocations h.trace ++ fids ∧
    (fids = [] → (fireEvent env fuel E h).2.trace = h.trace) := by
  have hl : (hooksOf h.eventHooks E).length = fids.length := by
    have := congrArg List.length hres
    simpa using this
  have hq : ∀ id ∈ hooksOf h.eventHooks E, ∀ fid,
      rawgeti h.registry id = LuaValue.func fid → Quiet env fid := by
    intro id hid fid hv
    apply hquiet
    have hm : rawgeti h.registry id ∈ (hooksOf h.eventHooks E).map (rawgeti h.registry) :=
      List.mem_map_of_mem _ hid
    rw [hres, hv] at hm
    simpa using hm
  have := fireEvent_quiet env E fuel h (by omega) (by omega) hq
  refine ⟨this.1, ?_, ?_⟩
  · rw [this.2.2.2.2.2.1, callbacksOf_of_map _ _ _ hres]
  · intro hnil
    have hz : ¬ (hooksOf (access h.eventHooks E) E).length > 0 := by
      rw [hooksOf_access, hl, hnil]
      simp
    unfold fireEvent
    simp only [hz, if_false]

theorem fireEvent_invokes_in_registration_order_witness :
    (hooksOf demoHost.eventHooks "Update").map (rawgeti demoHost.registry)
      = [1, 4].map LuaValue.func ∧
    (fireEvent demoEnv 3 "Update" demoHost).1 = Status.done ∧
    invocations (fireEvent demoEnv 3 "Update" demoHost).2.trace
      = invocations demoHost.trace ++ [1, 4] :=
  have hq : ∀ fid ∈ [1, 4], Quiet demoEnv fid := by
    intro fid hfid
    simp only [List.mem_cons, List.mem_singleton, List.not_mem_nil, or_false] at hfid
    rcases hfid with rfl | rfl
    · exact quiet_demo_1
    · exact quiet_demo_4
  ⟨by decide,
   (fireEvent_invokes_in_registration_order demoEnv "Update" 3 demoHost [1, 4]
      (by decide) hq (by decide) (by decide)).1,
   (fireEvent_invokes_in_registration_order demoEnv "Update" 3 demoHost [1, 4]
      (by decide) hq (by decide) (by decide)).2.1⟩

/-- C5: in a sequence that mixes references resolving to functions with
references that do not, every iteration on a bad entry leaves the host as it
is and hands over to the next index, so later entries are still dispatched;
and when the callbacks leave the hook map alone the whole pass finishes having
entered exactly the resolving entries, once each, in registration order
(`callbacksOf` drops the others). -/
theorem fireEvent_skips_bad_entries (env : Env) (E : String) (fuel : Nat) (h : Host)
    (hlen : (hooksOf h.eventHooks E).length < 4294967296)
    (hfuel : (hooksOf h.eventHooks E).length < fuel)
    (hquiet : ∀ id ∈ hooksOf h.eventHooks E, ∀ fid,
      rawgeti h.registry id = LuaValue.func fid → Quiet env fid) :
    (fireEvent env fuel E h).1 = Status.done ∧
    invocations (fireEvent env fuel E h).2.trace =
      invocations h.trace ++ callbacksOf h.registry (hooksOf h.eventHooks E) ∧
    ∀ (i k : Nat) (t : Host), access t.eventHooks E = t.eventHooks →
      i < (hooksOf t.eventHooks E).length →
      funcId (rawgeti t.registry ((hooksOf t.eventHooks E).getD i 0)) = none →
      fireLoop env E (k + 1) i t = fireLoop env E k ((i + 1) % 4294967296) t := by
  have := fireEvent_quiet env E fuel h hlen hfuel hquiet
  exact ⟨this.1, this.2.2.2.2.2.1, fun i k t hp hi hv => fireLoop_skip env E k i t hp hi hv⟩

theorem fireEvent_skips_bad_entries_witness :
    callbacksOf mixedHost.registry (hooksOf mixedHost.eventHooks "Update") = [1, 4] ∧
    (fireEvent demoEnv 5 "Update" mixedHost).1 = Status.done ∧
    invocations (fireEvent demoEnv 5 "Update" mixedHost).2.trace =
      invocations mixedHost.trace ++
        callbacksOf mixedHost.registry (hooksOf mixedHost.eventHooks "Update") :=
  have hq : ∀ id ∈ hooksOf mixedHost.eventHooks "Update", ∀ fid,
      rawgeti mixedHost.registry id = LuaValue.func fid → Quiet demoEnv fid := by
    intro id hid fid hv
    have hid2 : id = 3 ∨ id = 4294967295 ∨ id = 5 ∨ id = 4 := by
      have : hooksOf mixedHost.eventHooks "Update" = [3, 4294967295, 5, 4] := by decide
      rw [this] at hid
      simpa using hid
    rcases hid2 with rfl | rfl | rfl | rfl
    · have : fid = 1 := by
        have hv2 : rawgeti mixedHost.registry 3 = LuaValue.func 1 := by decide
        rw [hv2] at hv
        exact (LuaValue.func.inj hv).symm
      rw [this]; exact quiet_demo_1
    · have hv2 : rawgeti mixedHost.registry 4294967295 = LuaValue.nil := by decide
      rw [hv2] at hv
      cases hv
    · have hv2 : rawgeti mixedHost.registry 5 = LuaValue.number 5 := by decide
      rw [hv2] at hv
      cases hv
    · have : fid = 4 := by
        have hv2 : rawgeti mixedHost.registry 4 = LuaValue.func 4 := by decide
        rw [hv2] at hv
        exact (LuaValue.func.inj hv).symm
      rw [this]; exact quiet_demo_4
  ⟨by decide,
   (fireEvent_skips_bad_entries demoEnv "Update" 5 mixedHost (by decide) (by decide) hq).1,
   (fireEvent_skips_bad_entries demoEnv "Update" 5 mixedHost (by decide) (by decide) hq).2.1⟩

/-! ## The clock and the driver loop -/

theorem fireEvent_grows (env : Env) (fuel : Nat) (E : String) (h : Host) :
    Grows h (fireEvent env fuel E h).2 := by
  unfold fireEvent
  simp only []
  split
  · exact (access_grows h E).trans (fireLoop_grows env E fuel 0 _)
  · exact access_grows h E

theorem callBinding_getDeltaTime (env : Env) (args : List LuaValue) (h : Host) :
    (callBinding env Binding.getDeltaTime args h).2.2 = [LuaValue.number h.deltaTime] := by
  simp [callBinding, cfunction, luaGetDeltaTime]

theorem loadScript_deltaTime (env : Env) (path : String) (h : Host) :
    ∃ t, (loadScript env path h).2.trace = h.trace ++ t ∧
      ∀ x, Obs.returned Binding.getDeltaTime x ∈ t → x = [LuaValue.number h.deltaTime] := by
  unfold loadScript
  cases hl : env.loadfile path with
  | compiled fid =>
    simp only []
    exact (pcall_grows env { h with stack := LuaValue.func fid :: h.stack }).trace
  | failed msg =>
    simp only [lua_tostring, top, List.headD_cons]
    exact ⟨[], by simp⟩

/-- C6: `tick(dt)` leaves `dt` in the clock, whatever happens during
the dispatch; every value a script was handed by `getDeltaTime` during that
tick is `dt`; a `getDeltaTime` call made on the state after the tick returns
`dt`; on the state at program start it returns zero, and so does every call
made while the start-up script is loaded. -/
theorem tick_sets_clock_before_dispatch (env : Env) (fuel : Nat) (dt : Rat) (h : Host) :
    (tick env fuel dt h).2.deltaTime = dt ∧
    (∃ t, (tick env fuel dt h).2.trace = h.trace ++ t ∧
      ∀ x, Obs.returned Binding.getDeltaTime x ∈ t → x = [LuaValue.number dt]) ∧
    (∀ args, (callBinding env Binding.getDeltaTime args (tick env fuel dt h).2).2.2
      = [LuaValue.number dt]) ∧
    (∀ args, (callBinding env Binding.getDeltaTime args initial).2.2 = [LuaValue.number 0]) ∧
    (∀ x, Obs.returned Binding.getDeltaTime x ∈ (prepareLuaState env).2.trace →
      x = [LuaValue.number 0]) := by
  have hg := fireEvent_grows env fuel "Update" { h with deltaTime := dt }
  have hdt : (tick env fuel dt h).2.deltaTime = dt := hg.deltaTime
  refine ⟨hdt, hg.trace, ?_, ?_, ?_⟩
  · intro args
    rw [callBinding_getDeltaTime, hdt]
  · intro args
    rw [callBinding_getDeltaTime]
    rfl
  · intro x hx
    obtain ⟨t, ht, hd⟩ := loadScript_deltaTime env "test.lua" initial
    have ht2 : (prepareLuaState env).2.trace = t := by
      unfold prepareLuaState
      rw [ht]
      rfl
    rw [ht2] at hx
    exact hd x hx

theorem ticks_quiet (env : Env) (fuel : Nat) (dt : Rat) (n : Nat) :
    ∀ (h : Host),
    access h.eventHooks "Update" = h.eventHooks →
    (hooksOf h.eventHooks "Update").length < 4294967296 →
    (hooksOf h.eventHooks "Update").length < fuel →
    (∀ id ∈ hooksOf h.eventHooks "Update", ∀ fid,
      rawgeti h.registry id = LuaValue.func fid → Quiet env fid) →
    ∀ C : Nat,
    (ticks env fuel dt n h).1 = Status.done ∧
    (ticks env fuel dt n h).2.eventHooks = h.eventHooks ∧
    (ticks env fuel dt n h).2.registry = h.registry ∧
    (invocations (ticks env fuel dt n h).2.trace).count C =
      (invocations h.trace).count C +
        n * (callbacksOf h.registry (hooksOf h.eventHooks "Update")).count C := by
  induction n with
  | zero =>
    intro h _ _ _ _ C
    simp [ticks]
  | succ n ih =>
    intro h hp hlen hfuel hq C
    have hf := fireEvent_quiet env "Update" fuel { h with deltaTime := dt } hlen hfuel hq
    obtain ⟨h1, h2, h3, _, _, h6, _⟩ := hf
    have h2' : (tick env fuel dt h).2.eventHooks = h.eventHooks := h2.trans hp
    have h3' : (tick env fuel dt h).2.registry = h.registry := h3
    have h1' : (tick env fuel dt h).1 = Status.done := h1
    have h6' : invocations (tick env fuel dt h).2.trace =
        invocations h.trace ++ callbacksOf h.registry (hooksOf h.eventHooks "Update") := h6
    have hrec := ih (tick env fuel dt h).2 (by rw [h2']; exact hp) (by rw [h2']; exact hlen)
      (by rw [h2']; exact hfuel) (by rw [h2', h3']; exact hq) C
    rw [h2', h3', h6'] at hrec
    have hstep : ticks env fuel dt (n + 1) h = ticks env fuel dt n (tick env fuel dt h).2 := by
      rw [ticks]
      simp only [h1']
    rw [hstep]
    refine ⟨hrec.1, hrec.2.1, hrec.2.2.1, ?_⟩
    rw [hrec.2.2.2, List.count_append]
    ring

/-- C7: when callback `C` is registered under "Update" through a
reference that resolves to it and the callbacks of "Update" leave the hook map
alone, any number `n` of consecutive ticks finishes with the hook map and the
reference slots exactly as they were, and `C` has been entered once per tick
for each of its registrations: exactly `n` times when it is registered once. -/
theorem ticks_keep_registration (env : Env) (fuel : Nat) (dt : Rat) (n : Nat) (h : Host)
    (C : Nat)
    (hreg : C ∈ callbacksOf h.registry (hooksOf h.eventHooks "Update"))
    (hquiet : ∀ id ∈ hooksOf h.eventHooks "Update", ∀ fid,
      rawgeti h.registry id = LuaValue.func fid → Quiet env fid)
    (hlen : (hooksOf h.eventHooks "Update").length < 4294967296)
    (hfuel : (hooksOf h.eventHooks "Update").length < fuel) :
    (ticks env fuel dt n h).1 = Status.done ∧
    (ticks env fuel dt n h).2.eventHooks = h.eventHooks ∧
    (ticks env fuel dt n h).2.registry = h.registry ∧
    (invocations (ticks env fuel dt n h).2.trace).count C =
      (invocations h.trace).count C +
        n * (callbacksOf h.registry (hooksOf h.eventHooks "Update")).count C ∧
    ((callbacksOf h.registry (hooksOf h.eventHooks "Update")).count C = 1 →
      (invocations (ticks env fuel dt n h).2.trace).count C = (invocations h.trace).count C + n) := by
  have hne : hooksOf h.eventHooks "Update" ≠ [] := by
    intro hnil
    rw [hnil] at hreg
    simp [callbacksOf] at hreg
  have hp := access_of_hooksOf_ne_nil h.eventHooks "Update" hne
  have := ticks_quiet env fuel dt n h hp hlen hfuel hquiet C
  refine ⟨this.1, this.2.1, this.2.2.1, this.2.2.2, ?_⟩
  intro h1
  rw [this.2.2.2, h1]
  ring

theorem demoHost_quiet : ∀ id ∈ hooksOf demoHost.eventHooks "Update", ∀ fid,
    rawgeti demoHost.registry id = LuaValue.func fid → Quiet demoEnv fid := by
  intro id hid fid hv
  have hid2 : id = 3 ∨ id = 4 := by
    have : hooksOf demoHost.eventHooks "Update" = [3, 4] := by decide
    rw [this] at hid
    simpa using hid
  rcases hid2 with rfl | rfl
  · have hv2 : rawgeti demoHost.registry 3 = LuaValue.func 1 := by decide
    rw [hv2] at hv
    rw [← LuaValue.func.inj hv]; exact quiet_demo_1
  · have hv2 : rawgeti demoHost.registry 4 = LuaValue.func 4 := by decide
    rw [hv2] at hv
    rw [← LuaValue.func.inj hv]; exact quiet_demo_4

theorem ticks_keep_registration_witness :
    1 ∈ callbacksOf demoHost.registry (hooksOf demoHost.eventHooks "Update") ∧
    (ticks demoEnv 3 12 60 demoHost).1 = Status.done ∧
    (ticks demoEnv 3 12 60 demoHost).2.eventHooks = demoHost.eventHooks ∧
    (ticks demoEnv 3 12 60 demoHost).2.registry = demoHost.registry ∧
    (invocations (ticks demoEnv 3 12 60 demoHost).2.trace).count 1 =
      (invocations demoHost.trace).count 1 + 60 :=
  have hk : (callbacksOf demoHost.registry (hooksOf demoHost.eventHooks "Update")).count 1 = 1 := by
    decide
  ⟨by decide,
   (ticks_keep_registration demoEnv 3 12 60 demoHost 1 (by decide) demoHost_quiet
      (by decide) (by decide)).1,
   (ticks_keep_registration demoEnv 3 12 60 demoHost 1 (by decide) demoHost_quiet
      (by decide) (by decide)).2.1,
   (ticks_keep_registration demoEnv 3 12 60 demoHost 1 (by decide) demoHost_quiet
      (by decide) (by decide)).2.2.1,
   (ticks_keep_registration demoEnv 3 12 60 demoHost 1 (by decide) demoHost_quiet
      (by decide) (by decide)).2.2.2.2 hk⟩

/-! ## Registration during dispatch -/

theorem callbacksOf_stable (R ext : List LuaValue) (ids : List Nat)
    (hwf : ∀ id ∈ ids, id ≤ R.length ∨ id = 4294967295)
    (hlen : (R ++ ext).length < 4294967295) :
    callbacksOf (R ++ ext) ids = callbacksOf R ids := by
  unfold callbacksOf
  apply List.filterMap_congr
  intro id hid
  rw [rawgeti_stable R ext id (hwf id hid) hlen]

theorem pcall_done (env : Env) (h : Host)
    (hrun : ∀ fid t, (invoke env fid t).1 = Status.done) :
    (pcall env h).1 = Status.done := by
  unfold pcall
  split
  · exact hrun _ _
  · rfl

theorem fireLoop_not_crashed (env : Env) (E : String) (fuel : Nat)
    (hrun : ∀ fid t, (invoke env fid t).1 = Status.done) :
    ∀ (i : Nat) (h : Host), (fireLoop env E fuel i h).1 ≠ Status.crashed := by
  induction fuel with
  | zero => intro i h; simp [fireLoop]
  | succ fuel ih =>
    intro i h
    rw [fireLoop]
    simp only [pcall_done env _ hrun]
    split
    · split
      · exact ih _ _
      · exact ih _ _
    · simp

theorem demoEnv_runs (fid : Nat) (t : Host) : (invoke demoEnv fid t).1 = Status.done := by
  rw [(invoke_fields demoEnv fid t).1]
  match fid with
  | 0 => rfl
  | 1 => rfl
  | 2 =>
    have hcode : demoEnv.code 2 (t.trace ++ [Obs.invoked 2]) =
        Script.call Binding.addEventListener [LuaValue.str "Update", LuaValue.func 3]
          (fun _ => Script.ret []) := rfl
    rw [hcode, runScript]
    have hh := hookEvent_ok demoEnv
      { t with stack := t.stack.drop 1, trace := t.trace ++ [Obs.invoked 2] }
      [LuaValue.func 3, LuaValue.str "Update"] "Update" rfl rfl
    have hc := (callBinding_state demoEnv Binding.addEventListener
      [LuaValue.str "Update", LuaValue.func 3]
      { t with stack := t.stack.drop 1, trace := t.trace ++ [Obs.invoked 2] }).1
    have hd : (callBinding demoEnv Binding.addEventListener
        [LuaValue.str "Update", LuaValue.func 3]
        { t with stack := t.stack.drop 1, trace := t.trace ++ [Obs.invoked 2] }).1
        = Status.done := by
      rw [hc]
      show (hookEvent demoEnv _ [LuaValue.func 3, LuaValue.str "Update"]).1 = Status.done
      rw [hh]
    simp only [hd]
    rfl
  | 3 => rfl
  | 4 => rfl
  | 5 =>
    have hcode : demoEnv.code 5 (t.trace ++ [Obs.invoked 5]) =
        Script.call Binding.addEventListener [LuaValue.str "Update"] Script.ret := rfl
    rw [hcode, runScript]
    have hh := hookEvent_wrong demoEnv
      { t with stack := t.stack.drop 1, trace := t.trace ++ [Obs.invoked 5] }
      [LuaValue.str "Update"] (by decide)
    have hc := (callBinding_state demoEnv Binding.addEventListener [LuaValue.str "Update"]
      { t with stack := t.stack.drop 1, trace := t.trace ++ [Obs.invoked 5] }).1
    have hd : (callBinding demoEnv Binding.addEventListener [LuaValue.str "Update"]
        { t with stack := t.stack.drop 1, trace := t.trace ++ [Obs.invoked 5] }).1
        = Status.done := by
      rw [hc]
      show (hookEvent demoEnv _ [LuaValue.str "Update"]).1 = Status.done
      rw [hh]
    simp only [hd]
    rfl
  | n + 6 => rfl

/-- C10: `fireEvent(E)` with callbacks that run to completion and may
register further callbacks (every reference of `E` being a slot of the
reference table or the image of `LUA_REFNIL`, the table staying within the
range of `int`, fewer than 2^32 iterations).  The dispatch never crashes.  The
sequence of `E` after the call is the sequence before it followed by the
references appended meanwhile, and the original references resolve as they did
at the start.  The callbacks entered are those of the first `fuel` entries of
that live sequence, in index order, each once: all the original ones in their
order as soon as the fuel covers them, then the appended ones.  The pass
finishes unless the live sequence has reached `fuel` entries; when the live
sequence stays shorter than the fuel it finishes having entered every original
callback and, after them, every appended one. -/
theorem fireEvent_reentrant_registration (env : Env) (E : String) (fuel : Nat) (h : Host)
    (hrun : ∀ fid t, (invoke env fid t).1 = Status.done)
    (hfuel : fuel < 4294967296)
    (hwf : ∀ id ∈ hooksOf h.eventHooks E, id ≤ h.registry.length ∨ id = 4294967295)
    (hbound : (fireEvent env fuel E h).2.registry.length < 2147483647) :
    ∃ appended,
      hooksOf (fireEvent env fuel E h).2.eventHooks E = hooksOf h.eventHooks E ++ appended ∧
      callbacksOf (fireEvent env fuel E h).2.registry (hooksOf h.eventHooks E)
        = callbacksOf h.registry (hooksOf h.eventHooks E) ∧
      invocations (fireEvent env fuel E h).2.trace =
        invocations h.trace ++ callbacksOf (fireEvent env fuel E h).2.registry
          ((hooksOf h.eventHooks E ++ appended).take fuel) ∧
      ((hooksOf h.eventHooks E).length ≤ fuel →
        invocations (fireEvent env fuel E h).2.trace =
          invocations h.trace ++ callbacksOf h.registry (hooksOf h.eventHooks E) ++
            callbacksOf (fireEvent env fuel E h).2.registry
              (appended.take (fuel - (hooksOf h.eventHooks E).length))) ∧
      ((fireEvent env fuel E h).1 = Status.done ∨
        ((fireEvent env fuel E h).1 = Status.outOfFuel ∧
          fuel ≤ (hooksOf h.eventHooks E ++ appended).length)) ∧
      ((hooksOf h.eventHooks E ++ appended).length < fuel →
        (fireEvent env fuel E h).1 = Status.done ∧
        invocations (fireEvent env fuel E h).2.trace =
          invocations h.trace ++ callbacksOf h.registry (hooksOf h.eventHooks E) ++
            callbacksOf (fireEvent env fuel E h).2.registry appended) := by
  have hg := fireEvent_grows env fuel E h
  obtain ⟨ext, hext⟩ := hg.registry
  obtain ⟨app, happ, _⟩ := hg.hooks E
  have hbound2 : (fireEvent env fuel E h).2.registry.length < 4294967295 := by omega
  have hstable : callbacksOf (fireEvent env fuel E h).2.registry (hooksOf h.eventHooks E)
      = callbacksOf h.registry (hooksOf h.eventHooks E) := by
    rw [hext]
    exact callbacksOf_stable _ _ _ hwf (by rw [← hext]; exact hbound2)
  have hmain :
      invocations (fireEvent env fuel E h).2.trace =
        invocations h.trace ++ callbacksOf (fireEvent env fuel E h).2.registry
          ((hooksOf h.eventHooks E ++ app).take fuel) ∧
      ((fireEvent env fuel E h).1 = Status.done ∨
        ((fireEvent env fuel E h).1 = Status.outOfFuel ∧
          fuel ≤ (hooksOf h.eventHooks E ++ app).length)) := by
    by_cases hpos : (hooksOf (access h.eventHooks E) E).length > 0
    · have hfe : fireEvent env fuel E h
          = fireLoop env E fuel 0 { h with eventHooks := access h.eventHooks E } := by
        unfold fireEvent
        simp only [hpos, if_true]
      rw [hfe] at hbound2 happ ⊢
      obtain ⟨n, hn, hin, hinv, hdone, hout⟩ :=
        fireLoop_general env E fuel 0 { h with eventHooks := access h.eventHooks E }
          (access_access _ _) (Nat.zero_le _) (by omega)
          (by simpa [hooksOf_access] using hwf) hbound2
      have hnc := fireLoop_not_crashed env E fuel hrun 0
        { h with eventHooks := access h.eventHooks E }
      rw [happ] at hin hdone
      cases hst : (fireLoop env E fuel 0 { h with eventHooks := access h.eventHooks E }).1 with
      | done =>
        have hn2 := hdone hst
        refine ⟨?_, Or.inl rfl⟩
        rw [hinv, happ]
        have h1 : (hooksOf h.eventHooks E ++ app).take n = hooksOf h.eventHooks E ++ app :=
          List.take_of_length_le (by omega)
        have h2 : (hooksOf h.eventHooks E ++ app).take fuel = hooksOf h.eventHooks E ++ app :=
          List.take_of_length_le (by omega)
        simp only [List.drop_zero]
        rw [h1, h2]
      | crashed => exact absurd hst hnc
      | outOfFuel =>
        have hn2 := hout hst
        refine ⟨?_, Or.inr ⟨rfl, by omega⟩⟩
        rw [hinv, happ, hn2]
        simp only [List.drop_zero]
    · have hfe : fireEvent env fuel E h
          = (Status.done, { h with eventHooks := access h.eventHooks E }) := by
        unfold fireEvent
        simp only [hpos, if_false]
      rw [hfe] at happ ⊢
      have hnil : hooksOf h.eventHooks E = [] := by
        rw [hooksOf_access] at hpos
        apply List.eq_nil_of_length_eq_zero; omega
      have happ2 : app = [] := by
        have h1 : hooksOf (access h.eventHooks E) E = hooksOf h.eventHooks E ++ app := happ
        rw [hooksOf_access, hnil] at h1
        simpa using h1.symm
      exact ⟨by simp [hnil, happ2, callbacksOf], Or.inl rfl⟩
  obtain ⟨hinv, hstatus⟩ := hmain
  have hsplit : (hooksOf h.eventHooks E).length ≤ fuel →
      invocations (fireEvent env fuel E h).2.trace =
        invocations h.trace ++ callbacksOf h.registry (hooksOf h.eventHooks E) ++
          callbacksOf (fireEvent env fuel E h).2.registry
            (app.take (fuel - (hooksOf h.eventHooks E).length)) := by
    intro hle
    rw [hinv, List.take_append_eq_append_take, List.take_of_length_le hle, ← hstable]
    simp [callbacksOf, List.filterMap_append, List.append_assoc]
  refine ⟨app, happ, hstable, hinv, hsplit, hstatus, ?_⟩
  intro hlt
  have hd : (fireEvent env fuel E h).1 = Status.done := by
    rcases hstatus with hd | ⟨_, hle⟩
    · exact hd
    · omega
  refine ⟨hd, ?_⟩
  simp only [List.length_append] at hlt
  rw [hsplit (by omega), List.take_of_length_le (by omega)]

theorem fireEvent_reentrant_registration_witness :
    (∀ id ∈ hooksOf reentrantHost.eventHooks "Update",
      id ≤ reentrantHost.registry.length ∨ id = 4294967295) ∧
    (fireEvent demoEnv 5 "Update" reentrantHost).2.registry.length < 2147483647 ∧
    hooksOf (fireEvent demoEnv 5 "Update" reentrantHost).2.eventHooks "Update" = [3, 4] ∧
    invocations (fireEvent demoEnv 5 "Update" reentrantHost).2.trace = [2, 3] ∧
    ∃ appended,
      hooksOf (fireEvent demoEnv 5 "Update" reentrantHost).2.eventHooks "Update"
        = hooksOf reentrantHost.eventHooks "Update" ++ appended ∧
      callbacksOf (fireEvent demoEnv 5 "Update" reentrantHost).2.registry
          (hooksOf reentrantHost.eventHooks "Update")
        = callbacksOf reentrantHost.registry (hooksOf reentrantHost.eventHooks "Update") ∧
      invocations (fireEvent demoEnv 5 "Update" reentrantHost).2.trace =
        invocations reentrantHost.trace ++
          callbacksOf (fireEvent demoEnv 5 "Update" reentrantHost).2.registry
            ((hooksOf reentrantHost.eventHooks "Update" ++ appended).take 5) ∧
      ((hooksOf reentrantHost.eventHooks "Update").length ≤ 5 →
        invocations (fireEvent demoEnv 5 "Update" reentrantHost).2.trace =
          invocations reentrantHost.trace ++
            callbacksOf reentrantHost.registry (hooksOf reentrantHost.eventHooks "Update") ++
            callbacksOf (fireEvent demoEnv 5 "Update" reentrantHost).2.registry
              (appended.take (5 - (hooksOf reentrantHost.eventHooks "Update").length))) ∧
      ((fireEvent demoEnv 5 "Update" reentrantHost).1 = Status.done ∨
        ((fireEvent demoEnv 5 "Update" reentrantHost).1 = Status.outOfFuel ∧
          5 ≤ (hooksOf reentrantHost.eventHooks "Update" ++ appended).length)) ∧
      ((hooksOf reentrantHost.eventHooks "Update" ++ appended).length < 5 →
        (fireEvent demoEnv 5 "Update" reentrantHost).1 = Status.done ∧
        invocations (fireEvent demoEnv 5 "Update" reentrantHost).2.trace =
          invocations reentrantHost.trace ++
            callbacksOf reentrantHost.registry (hooksOf reentrantHost.eventHooks "Update") ++
            callbacksOf (fireEvent demoEnv 5 "Update" reentrantHost).2.registry appended) :=
  ⟨by decide, by decide, by decide, by decide,
   fireEvent_reentrant_registration demoEnv "Update" 5 reentrantHost
     demoEnv_runs (by decide) (by decide) (by decide)⟩

/-! ## Where the code departs from the description -/

/-- C8: what the code does with the values a callback returns.  A
callback that returns one value leaves it on the main stack after `fireEvent`,
and a callback that raises an error leaves the error value there: the stack
is not what it was before the call. -/
theorem fireEvent_leaves_results_on_stack :
    demoHost.stack = [] ∧
    (fireEvent demoEnv 3 "Update" demoHost).1 = Status.done ∧
    (fireEvent demoEnv 3 "Update" demoHost).2.stack = [LuaValue.number 7] ∧
    errorHost.stack = [] ∧
    (fireEvent demoEnv 3 "Update" errorHost).1 = Status.done ∧
    (fireEvent demoEnv 3 "Update" errorHost).2.stack = [LuaValue.str "boom"] := by
  decide

/-- C9: what `loadScript` does when the chunk compiles and then fails
at run time ("test.lua" of the sample world raises "boom"): nothing is written
to the error stream and the message stays on the stack; a file that fails to
load is reported and its message popped. -/
theorem loadScript_runtime_failure_not_reported :
    (loadScript demoEnv "test.lua" initial).1 = Status.done ∧
    (loadScript demoEnv "test.lua" initial).2.cerr = [] ∧
    (loadScript demoEnv "test.lua" initial).2.stack = [LuaValue.str "boom"] ∧
    (loadScript demoEnv "missing.lua" initial).2.cerr = ["[ERROR]: cannot open file\n"] ∧
    (loadScript demoEnv "missing.lua" initial).2.stack = [] := by
  decide

end Lua53Embed
